import Mathlib

/-!
Shallow embedding of the delivery-guarantee protocols in
`01-guarantees/solution/guarantees.py`: four sender/receiver pairs
(at-most-once, at-least-once, exactly-once, exactly-once-ordered)
modelled as pure state machines.  Each handler takes a state and an
incoming message/event and returns the new state together with the
list of emitted effects (wire sends, local deliveries, timer ops),
mirroring the Python `Context` side effects.
-/

set_option maxHeartbeats 1000000

/-- A wire or local message: `type` is the message-type string
("DATA", "ACK", "MESSAGE", ...); `seq` and `text` model the payload
fields (unused fields are simply ignored by handlers, as in the
Python dict-based payloads). -/
structure Msg where
  type : String
  seq : Nat
  text : String
  deriving DecidableEq, Repr

/-- Effects emitted during one reaction: deliver a text to the local
application (`ctx.send_local` of a MESSAGE), send DATA or ACK on the
wire (`ctx.send`), arm the one-shot retransmission timer
(`ctx.set_timer_once`), or cancel it (`ctx.cancel_timer`). -/
inductive Out where
  | deliver (text : String)
  | sendData (seq : Nat) (text : String)
  | sendAck (seq : Nat)
  | setTimer
  | cancelTimer
  deriving DecidableEq, Repr

def Out.isDeliver : Out → Bool
  | .deliver _ => true
  | _ => false

def Out.isSetTimer : Out → Bool
  | .setTimer => true
  | _ => false

def Out.isSendData : Out → Bool
  | .sendData _ _ => true
  | _ => false

/-- Key membership in an association-list model of a Python dict. -/
def keyMem (k : Nat) (l : List (Nat × String)) : Bool :=
  l.any (fun p => p.1 == k)

theorem lookup_some_mem {k : Nat} {l : List (Nat × String)} {t : String}
    (h : l.lookup k = some t) : (k, t) ∈ l := by
  induction l with
  | nil => simp [List.lookup] at h
  | cons p ps ih =>
      rw [List.lookup_cons] at h
      rcases hk : (k == p.1) with _ | _
      · rw [hk] at h
        exact List.mem_cons_of_mem _ (ih h)
      · rw [hk] at h
        have hkp : k = p.1 := by simpa using hk
        have : p = (k, t) := by
          cases p
          simp at h hkp ⊢
          exact ⟨hkp.symm, h⟩
        simp [this]

/-- The shared contiguous-flush loop of `AtMostOnceReceiver._flush` and
`ExactlyOnceOrderedReceiver._flush` (the Python code duplicates it
verbatim): `while next_seq in buffer: text = buffer.pop(next_seq);
deliver(text); next_seq += 1`.  Returns the final `next_seq`, the
remaining buffer, and the texts delivered in order. -/
def flushBuf (next : Nat) (buf : List (Nat × String)) : Nat × List (Nat × String) × List String :=
  match h : buf.lookup next with
  | none => (next, buf, [])
  | some t =>
      have : (buf.eraseP (fun p => p.1 == next)).length < buf.length := by
        have hmem : (next, t) ∈ buf := lookup_some_mem h
        have := List.length_eraseP_add_one (p := fun p => p.1 == next) hmem (by simp)
        omega
      let r := flushBuf (next + 1) (buf.eraseP (fun p => p.1 == next))
      (r.1, r.2.1, t :: r.2.2)
termination_by buf.length

-- AT MOST ONCE ---------------------------------------------------------------

namespace AtMostOnceSender

structure State where
  nextSeq : Nat
  deriving DecidableEq, Repr

def init : State := ⟨1⟩

def onLocalMessage (st : State) (msg : Msg) : State × List Out :=
  if msg.type ≠ "MESSAGE" then (st, [])
  else ({ nextSeq := st.nextSeq + 1 }, [Out.sendData st.nextSeq msg.text])

def onMessage (st : State) (_msg : Msg) : State × List Out := (st, [])

end AtMostOnceSender

namespace AtMostOnceReceiver

structure State where
  nextSeq : Nat
  buffer : List (Nat × String)
  deriving DecidableEq, Repr

def init : State := ⟨1, []⟩

/-- `max_buffer` from `AtMostOnceReceiver.__init__`. -/
def maxBuffer : Nat := 12

/-- Smallest key of a non-empty buffer (`min(self._buffer.keys())`). -/
def minKey : List (Nat × String) → Nat
  | [] => 0
  | p :: ps => ps.foldl (fun a q => min a q.1) p.1

/-- `AtMostOnceReceiver._skip_ahead`. -/
def skipAhead (st : State) : State × List Out :=
  if st.buffer.isEmpty then (st, [])
  else
    let newNext := minKey st.buffer
    if newNext ≤ st.nextSeq then (st, [])
    else
      let f := flushBuf newNext st.buffer
      (⟨f.1, f.2.1⟩, f.2.2.map Out.deliver)

/-- `AtMostOnceReceiver.on_message`. -/
def onMessage (st : State) (msg : Msg) : State × List Out :=
  if msg.type ≠ "DATA" then (st, [])
  else if msg.seq < st.nextSeq then (st, [])
  else
    let r :=
      if msg.seq = st.nextSeq then
        let f := flushBuf (st.nextSeq + 1) st.buffer
        ((⟨f.1, f.2.1⟩ : State), Out.deliver msg.text :: f.2.2.map Out.deliver)
      else
        if keyMem msg.seq st.buffer then (st, [])
        else ({ st with buffer := st.buffer ++ [(msg.seq, msg.text)] }, [])
    if maxBuffer < r.1.buffer.length then
      let s := skipAhead r.1
      (s.1, r.2 ++ s.2)
    else r

/-- Run a list of arrivals through the receiver, returning final state. -/
def runState (st : State) : List Msg → State
  | [] => st
  | m :: ms => runState (onMessage st m).1 ms

/-- Run a list of arrivals, collecting all outputs in order. -/
def runOuts (st : State) : List Msg → List Out
  | [] => []
  | m :: ms =>
      let r := onMessage st m
      r.2 ++ runOuts r.1 ms

end AtMostOnceReceiver

-- EXACTLY ONCE ORDERED RECEIVER ----------------------------------------------

namespace ExactlyOnceOrderedReceiver

structure State where
  nextSeq : Nat
  buffer : List (Nat × String)
  deriving DecidableEq, Repr

def init : State := ⟨1, []⟩

/-- `ExactlyOnceOrderedReceiver.on_message`. -/
def onMessage (st : State) (msg : Msg) : State × List Out :=
  if msg.type ≠ "DATA" then (st, [])
  else if msg.seq < st.nextSeq then (st, [Out.sendAck msg.seq])
  else if msg.seq = st.nextSeq then
    let f := flushBuf (st.nextSeq + 1) st.buffer
    ((⟨f.1, f.2.1⟩ : State), Out.deliver msg.text :: f.2.2.map Out.deliver ++ [Out.sendAck msg.seq])
  else
    if keyMem msg.seq st.buffer then (st, [Out.sendAck msg.seq])
    else ({ st with buffer := st.buffer ++ [(msg.seq, msg.text)] }, [Out.sendAck msg.seq])

def runState (st : State) : List Msg → State
  | [] => st
  | m :: ms => runState (onMessage st m).1 ms

def runOuts (st : State) : List Msg → List Out
  | [] => []
  | m :: ms =>
      let r := onMessage st m
      r.2 ++ runOuts r.1 ms

/-- The texts delivered to the application over a run. -/
def runDelivered (st : State) (ms : List Msg) : List String :=
  (runOuts st ms).filterMap (fun o => match o with | Out.deliver t => some t | _ => none)

end ExactlyOnceOrderedReceiver

-- WINDOWED RELIABLE SENDER ---------------------------------------------------
-- (AtLeastOnceSender / ExactlyOnceSender / ExactlyOnceOrderedSender: the
-- Python classes are verbatim copies of one another except for `window`,
-- so the design is embedded once, parameterized by the window size.)

namespace Sender

structure State where
  nextSeq : Nat
  base : Nat
  unacked : List (Nat × String)
  pending : List String
  pendingIdx : Nat
  window : Nat
  timerActive : Bool
  deriving DecidableEq, Repr

/-- `__init__`: `next_seq = base = 1`, empty `unacked`/`pending`,
timer inactive; `window` is the per-variant constant. -/
def init (window : Nat) : State :=
  ⟨1, 1, [], [], 0, window, false⟩

def atLeastOnceInit : State := init 10
def exactlyOnceInit : State := init 10
def exactlyOnceOrderedInit : State := init 4

/-- `_has_window_space`. -/
def hasWindowSpace (st : State) : Bool :=
  st.nextSeq < st.base + st.window

/-- `_disarm_timer`: cancel and clear only if currently armed. -/
def disarm (st : State) : State × List Out :=
  if st.timerActive then ({ st with timerActive := false }, [Out.cancelTimer])
  else (st, [])

/-- `_restart_timer` = `_disarm_timer` then `_arm_timer`. -/
def restart (st : State) : State × List Out :=
  let d := disarm st
  ({ d.1 with timerActive := true }, d.2 ++ [Out.setTimer])

theorem restart_fst (st : State) : (restart st).1 = { st with timerActive := true } := by
  unfold restart disarm
  split <;> rfl

/-- Python dict insertion `unacked[seq] = text`: overwrite the value if
the key is present, otherwise append. -/
def dinsert (k : Nat) (v : String) (l : List (Nat × String)) : List (Nat × String) :=
  if keyMem k l then l.map (fun p => if p.1 == k then (k, v) else p)
  else l ++ [(k, v)]

/-- The base-sliding loop in `on_message`:
`while base < next_seq and base not in unacked: base += 1`. -/
def slideBase (base next : Nat) (u : List (Nat × String)) : Nat :=
  if h : base < next ∧ ¬ keyMem base u then slideBase (base + 1) next u
  else base
termination_by next - base
decreasing_by omega

/-- `_try_send_pending`: drain `pending` into free window slots, then
lazily compact the consumed prefix. -/
def trySendPending (st : State) : State × List Out :=
  if h : st.pendingIdx < st.pending.length ∧ st.nextSeq < st.base + st.window then
    let text := st.pending.get ⟨st.pendingIdx, h.1⟩
    let seq := st.nextSeq
    let wasEmpty := st.unacked.isEmpty
    let st1 : State := { st with
      pendingIdx := st.pendingIdx + 1
      nextSeq := st.nextSeq + 1
      unacked := dinsert seq text st.unacked }
    let r1 := if wasEmpty then restart st1 else (st1, [])
    let r2 := trySendPending r1.1
    (r2.1, Out.sendData seq text :: r1.2 ++ r2.2)
  else
    if 0 < st.pendingIdx ∧ st.pending.length ≤ 2 * st.pendingIdx then
      ({ st with pending := st.pending.drop st.pendingIdx, pendingIdx := 0 }, [])
    else (st, [])
termination_by st.pending.length - st.pendingIdx
decreasing_by
  split
  · rw [restart_fst]
    simp
    omega
  · simp
    omega

/-- `on_local_message`. -/
def onLocalMessage (st : State) (msg : Msg) : State × List Out :=
  if msg.type ≠ "MESSAGE" then (st, [])
  else if hasWindowSpace st then
    let seq := st.nextSeq
    let wasEmpty := st.unacked.isEmpty
    let st1 : State := { st with
      nextSeq := st.nextSeq + 1
      unacked := dinsert seq msg.text st.unacked }
    let r1 := if wasEmpty then restart st1 else (st1, [])
    (r1.1, Out.sendData seq msg.text :: r1.2)
  else ({ st with pending := st.pending ++ [msg.text] }, [])

/-- `on_message` (ACK handling). -/
def onMessage (st : State) (msg : Msg) : State × List Out :=
  if msg.type ≠ "ACK" then (st, [])
  else
    let u1 := st.unacked.filter (fun p => ¬ p.1 == msg.seq)
    let b1 := slideBase st.base st.nextSeq u1
    let st1 : State := { st with unacked := u1, base := b1 }
    let r1 :=
      if u1.isEmpty then disarm st1
      else if st.base < b1 then restart st1 else (st1, [])
    let r2 := trySendPending r1.1
    (r2.1, r1.2 ++ r2.2)

/-- `on_timer`. -/
def onTimer (st : State) (name : String) : State × List Out :=
  if name ≠ "rtx" then (st, [])
  else
    let st1 : State := { st with timerActive := false }
    if st1.unacked.isEmpty then (st1, [])
    else
      let souts := match st1.unacked.lookup st1.base with
        | some t => [Out.sendData st1.base t]
        | none => []
      ({ st1 with timerActive := true }, souts ++ [Out.setTimer])

/-- One reaction of the sender: an application input, a wire arrival,
or a timer expiry, as scheduled by the external runtime. -/
inductive Ev where
  | app (msg : Msg)
  | wire (msg : Msg)
  | timer (name : String)
  deriving DecidableEq, Repr

def step (st : State) : Ev → State × List Out
  | Ev.app m => onLocalMessage st m
  | Ev.wire m => onMessage st m
  | Ev.timer n => onTimer st n

def runState (st : State) : List Ev → State
  | [] => st
  | e :: es => runState (step st e).1 es

def runOuts (st : State) : List Ev → List Out
  | [] => []
  | e :: es =>
      let r := step st e
      r.2 ++ runOuts r.1 es

/-- The ACK sequence numbers carried by a list of events. -/
def ackSeqs (es : List Ev) : List Nat :=
  es.filterMap (fun e => match e with
    | Ev.wire m => if m.type == "ACK" then some m.seq else none
    | _ => none)

/-- The environment restriction satisfied by any whole-system run: an
ACK arriving at the sender acknowledges a sequence number the sender
has already assigned (the receiver only ever acknowledges received
DATA, and the channel cannot forge messages). -/
def validRun (st : State) : List Ev → Bool
  | [] => true
  | e :: es =>
      (match e with
        | Ev.wire m => !(m.type == "ACK") || decide (m.seq < st.nextSeq)
        | _ => true)
      && validRun (step st e).1 es

end Sender

-- AT LEAST ONCE RECEIVER -----------------------------------------------------

namespace AtLeastOnceReceiver

/-- The receiver is stateless (only its process id, not modelled). -/
def onMessage (msg : Msg) : List Out :=
  if msg.type ≠ "DATA" then []
  else [Out.deliver msg.text, Out.sendAck msg.seq]

end AtLeastOnceReceiver

-- EXACTLY ONCE (DEDUP) RECEIVER ----------------------------------------------

namespace ExactlyOnceReceiver

/-- `next_seq`, the circular bitmap `seen` (a bytearray holding 0/1
flags, embedded as `List Bool`), its capacity `win`, and the logical
`head` index aligned with `next_seq`. -/
structure State where
  nextSeq : Nat
  win : Nat
  head : Nat
  seen : List Bool
  deriving DecidableEq, Repr

/-- `__init__`: `next_seq = 1`, `win = 32`, `head = 0`, all-zero bitmap. -/
def init : State := ⟨1, 32, 0, List.replicate 32 false⟩

/-- `_advance`: rotate the head forward, bump `next_seq`, and clear the
slot that just left the window (`tail`, which is the pre-advance head). -/
def advance (st : State) : State :=
  let h := (st.head + 1) % st.win
  let tail := (h + st.win - 1) % st.win
  { st with head := h, nextSeq := st.nextSeq + 1, seen := st.seen.set tail false }

/-- The doubling loop of `_ensure_window`:
`while offset >= new_win and new_win < 1024: new_win *= 2`. -/
def growWin (offset w : Nat) : Nat :=
  if h : 0 < w ∧ w ≤ offset ∧ w < 1024 then growWin offset (w * 2)
  else w
termination_by 1024 - w
decreasing_by omega

/-- `_ensure_window`: grow the bitmap so `offset` fits, re-homing the
existing flags so that the flag for relative offset `d` moves from
index `(head + d) % win` to index `d` of the new buffer (`head` is
reset to 0). -/
def ensureWindow (offset : Nat) (st : State) : State :=
  if offset < st.win then st
  else
    let g := growWin offset st.win
    let nw := if g ≤ offset then offset + 1 else g
    let ns := (List.range nw).map (fun d =>
      if d < min st.win nw then st.seen.getD ((st.head + d) % st.win) false else false)
    { nextSeq := st.nextSeq, win := nw, head := 0, seen := ns }

theorem count_set_false_le (l : List Bool) (i : Nat) :
    (l.set i false).count true ≤ l.count true := by
  induction l generalizing i with
  | nil => simp
  | cons b bs ih =>
      cases i with
      | zero => cases b <;> simp [List.count_cons]
      | succ j =>
          simp only [List.set]
          cases b <;> simp [List.count_cons] <;> exact ih j

theorem count_set_false_lt (l : List Bool) (i : Nat) (h : l.getD i false = true) :
    (l.set i false).count true < l.count true := by
  induction l generalizing i with
  | nil => simp [List.getD] at h
  | cons b bs ih =>
      cases i with
      | zero =>
          rw [List.getD_cons_zero] at h
          subst h
          simp [List.count_cons]
      | succ j =>
          rw [List.getD_cons_succ] at h
          have := ih j h
          cases b <;> simp [List.count_cons] <;> omega

/-- The greedy catch-up loop in `on_message` when `offset == 0`:
`while seen[head] == 1: seen[head] = 0; advance()`. -/
def catchUp (st : State) : State :=
  if h : st.seen.getD st.head false = true then
    catchUp (advance { st with seen := st.seen.set st.head false })
  else st
termination_by st.seen.count true
decreasing_by
  have h1 := count_set_false_lt st.seen st.head h
  have h2 := count_set_false_le (st.seen.set st.head false)
    (((st.head + 1) % st.win + st.win - 1) % st.win)
  simp only [advance]
  omega

/-- `ExactlyOnceReceiver.on_message`. -/
def onMessage (st : State) (msg : Msg) : State × List Out :=
  if msg.type ≠ "DATA" then (st, [])
  else if msg.seq < st.nextSeq then (st, [Out.sendAck msg.seq])
  else
    let offset := msg.seq - st.nextSeq
    let st1 := ensureWindow offset st
    if offset = 0 then
      (catchUp (advance st1), [Out.deliver msg.text, Out.sendAck msg.seq])
    else
      let idx := (st1.head + offset) % st1.win
      if st1.seen.getD idx false = false then
        ({ st1 with seen := st1.seen.set idx true },
         [Out.deliver msg.text, Out.sendAck msg.seq])
      else (st1, [Out.sendAck msg.seq])

def runState (st : State) : List Msg → State
  | [] => st
  | m :: ms => runState (onMessage st m).1 ms

/-- Per-arrival delivery trace: each arrival's sequence number paired
with whether that reaction delivered a message to the application. -/
def runTrace (st : State) : List Msg → List (Nat × Bool)
  | [] => []
  | m :: ms =>
      let r := onMessage st m
      (m.seq, r.2.any Out.isDeliver) :: runTrace r.1 ms

/-- The sequence numbers of the arrivals whose reaction delivered. -/
def deliveredSeqs (st : State) (ms : List Msg) : List Nat :=
  ((runTrace st ms).filter (fun p => p.2)).map Prod.fst

end ExactlyOnceReceiver

-- INVARIANT PREDICATES -------------------------------------------------------

namespace ExactlyOnceReceiver

/-- The bitmap flag at logical offset `d` ahead of `next_seq`. -/
def bitAt (st : State) (d : Nat) : Bool :=
  st.seen.getD ((st.head + d) % st.win) false

/-- "Sequence number `s` has already been delivered", as recorded by
the receiver state: either `s` is behind `next_seq`, or its in-window
flag is set. -/
def DelivC (st : State) (s : Nat) : Prop :=
  (1 ≤ s ∧ s < st.nextSeq) ∨
  (st.nextSeq ≤ s ∧ s < st.nextSeq + st.win ∧ bitAt st (s - st.nextSeq) = true)

/-- Structural well-formedness of the receiver state. -/
def Core (st : State) : Prop :=
  0 < st.win ∧ st.head < st.win ∧ st.seen.length = st.win ∧ 1 ≤ st.nextSeq

/-- Full invariant relating the state to the set `ds` of sequence
numbers delivered so far: the bitmap is well formed, the flag at
offset 0 is clear, and `ds` is exactly what `DelivC` describes. -/
def Inv (st : State) (ds : List Nat) : Prop :=
  Core st ∧ bitAt st 0 = false ∧ ∀ s, s ∈ ds ↔ DelivC st s

end ExactlyOnceReceiver

namespace AtMostOnceReceiver

/-- Well-formedness of the reorder buffer: every buffered key is
strictly ahead of `next_seq` and keys are distinct. -/
def WF (st : State) : Prop :=
  (∀ p ∈ st.buffer, st.nextSeq < p.1) ∧ (st.buffer.map Prod.fst).Nodup

end AtMostOnceReceiver

namespace ExactlyOnceOrderedReceiver

/-- Well-formedness of the reorder buffer, plus value consistency with
the fixed sender's text assignment `f`. -/
def WF (f : Nat → String) (st : State) : Prop :=
  (∀ p ∈ st.buffer, st.nextSeq < p.1) ∧ (st.buffer.map Prod.fst).Nodup ∧
  (∀ p ∈ st.buffer, p.2 = f p.1)

end ExactlyOnceOrderedReceiver

namespace Sender

/-- The windowed-sender state invariant, relative to the list `acked`
of sequence numbers whose ACKs have been processed so far. -/
def Inv (st : State) (acked : List Nat) : Prop :=
  (st.unacked.map Prod.fst).Nodup ∧
  (∀ s, keyMem s st.unacked = true ↔ (st.base ≤ s ∧ s < st.nextSeq ∧ s ∉ acked)) ∧
  (∀ a ∈ acked, a < st.nextSeq) ∧
  st.base ≤ st.nextSeq ∧ st.nextSeq ≤ st.base + st.window ∧
  (st.unacked = [] → st.base = st.nextSeq) ∧
  (st.timerActive = true ↔ st.unacked ≠ []) ∧
  (st.unacked ≠ [] → keyMem st.base st.unacked = true)

end Sender

-- THEOREMS -------------------------------------------------------------------

/-- C9: fails closed on unrecognized message types.  For every
component, an incoming event whose message type is not the one the
handler processes (non-DATA at any receiver's `on_message`, non-ACK at
the windowed sender's `on_message`, non-MESSAGE at either sender's
`on_local_message`) leaves the state unchanged and emits nothing. -/
theorem fails_closed_on_unrecognized_types :
    (∀ (st : AtMostOnceReceiver.State) (m : Msg), m.type ≠ "DATA" →
      AtMostOnceReceiver.onMessage st m = (st, [])) ∧
    (∀ (st : ExactlyOnceReceiver.State) (m : Msg), m.type ≠ "DATA" →
      ExactlyOnceReceiver.onMessage st m = (st, [])) ∧
    (∀ (st : ExactlyOnceOrderedReceiver.State) (m : Msg), m.type ≠ "DATA" →
      ExactlyOnceOrderedReceiver.onMessage st m = (st, [])) ∧
    (∀ (m : Msg), m.type ≠ "DATA" → AtLeastOnceReceiver.onMessage m = []) ∧
    (∀ (st : Sender.State) (m : Msg), m.type ≠ "ACK" →
      Sender.onMessage st m = (st, [])) ∧
    (∀ (st : Sender.State) (m : Msg), m.type ≠ "MESSAGE" →
      Sender.onLocalMessage st m = (st, [])) ∧
    (∀ (st : AtMostOnceSender.State) (m : Msg), m.type ≠ "MESSAGE" →
      AtMostOnceSender.onLocalMessage st m = (st, [])) := by
  refine ⟨?_, ?_, ?_, ?_, ?_, ?_, ?_⟩
  · intro st m h
    simp [AtMostOnceReceiver.onMessage, h]
  · intro st m h
    simp [ExactlyOnceReceiver.onMessage, h]
  · intro st m h
    simp [ExactlyOnceOrderedReceiver.onMessage, h]
  · intro m h
    simp [AtLeastOnceReceiver.onMessage, h]
  · intro st m h
    simp [Sender.onMessage, h]
  · intro st m h
    simp [Sender.onLocalMessage, h]
  · intro st m h
    simp [AtMostOnceSender.onLocalMessage, h]

/-- Witness for C9: a concrete unrecognized type ("PING") is a no-op
at every entry point. -/
theorem fails_closed_on_unrecognized_types_witness :
    AtMostOnceReceiver.onMessage AtMostOnceReceiver.init ⟨"PING", 1, "x"⟩
      = (AtMostOnceReceiver.init, []) ∧
    ExactlyOnceReceiver.onMessage ExactlyOnceReceiver.init ⟨"PING", 1, "x"⟩
      = (ExactlyOnceReceiver.init, []) ∧
    ExactlyOnceOrderedReceiver.onMessage ExactlyOnceOrderedReceiver.init ⟨"PING", 1, "x"⟩
      = (ExactlyOnceOrderedReceiver.init, []) ∧
    AtLeastOnceReceiver.onMessage ⟨"PING", 1, "x"⟩ = [] ∧
    Sender.onMessage (Sender.init 10) ⟨"PING", 1, "x"⟩ = (Sender.init 10, []) ∧
    Sender.onLocalMessage (Sender.init 10) ⟨"PING", 1, "x"⟩ = (Sender.init 10, []) ∧
    AtMostOnceSender.onLocalMessage AtMostOnceSender.init ⟨"PING", 1, "x"⟩
      = (AtMostOnceSender.init, []) :=
  ⟨fails_closed_on_unrecognized_types.1 _ _ (by decide),
   fails_closed_on_unrecognized_types.2.1 _ _ (by decide),
   fails_closed_on_unrecognized_types.2.2.1 _ _ (by decide),
   fails_closed_on_unrecognized_types.2.2.2.1 _ (by decide),
   fails_closed_on_unrecognized_types.2.2.2.2.1 _ _ (by decide),
   fails_closed_on_unrecognized_types.2.2.2.2.2.1 _ _ (by decide),
   fails_closed_on_unrecognized_types.2.2.2.2.2.2 _ _ (by decide)⟩

/-- C6: with window = 10, fifteen back-to-back application MESSAGE
inputs and no ACKs or timer fires produce exactly the ten DATA
transmissions seq 1..10, leave the five remaining texts in `pending`,
and arm the retransmission timer exactly once (on the first input). -/
theorem sender_fifteen_inputs_scenario :
    (Sender.runOuts Sender.atLeastOnceInit
        ((List.range 15).map (fun i => Sender.Ev.app ⟨"MESSAGE", 0, toString (i + 1)⟩))).filter
        Out.isSendData
      = (List.range 10).map (fun i => Out.sendData (i + 1) (toString (i + 1))) ∧
    (Sender.runState Sender.atLeastOnceInit
        ((List.range 15).map (fun i => Sender.Ev.app ⟨"MESSAGE", 0, toString (i + 1)⟩))).pending
      = (List.range 5).map (fun i => toString (i + 11)) ∧
    (Sender.runOuts Sender.atLeastOnceInit
        ((List.range 15).map (fun i => Sender.Ev.app ⟨"MESSAGE", 0, toString (i + 1)⟩))).countP
        Out.isSetTimer
      = 1 ∧
    (Sender.step Sender.atLeastOnceInit (Sender.Ev.app ⟨"MESSAGE", 0, toString 1⟩)).2
      = [Out.sendData 1 (toString 1), Out.setTimer] := by
  decide

namespace Sender

/-- Window well-formedness: `base ≤ next_seq ≤ base + window`. -/
def WinWF (st : State) : Prop :=
  st.base ≤ st.nextSeq ∧ st.nextSeq ≤ st.base + st.window

theorem slideBase_ge (base next : Nat) (u : List (Nat × String)) :
    base ≤ slideBase base next u := by
  induction base, next, u using slideBase.induct with
  | case1 b n u h ih =>
      rw [slideBase, dif_pos h]
      omega
  | case2 b n u h =>
      rw [slideBase, dif_neg h]

theorem slideBase_le (base next : Nat) (u : List (Nat × String)) (h : base ≤ next) :
    slideBase base next u ≤ next := by
  induction base, next, u using slideBase.induct with
  | case1 b n u hg ih =>
      rw [slideBase, dif_pos hg]
      exact ih (by omega)
  | case2 b n u hg =>
      rw [slideBase, dif_neg hg]
      exact h

theorem trySend_wi (st : State) :
    st.base ≤ st.nextSeq → st.nextSeq ≤ st.base + st.window →
    (trySendPending st).1.base = st.base ∧
    (trySendPending st).1.window = st.window ∧
    st.base ≤ (trySendPending st).1.nextSeq ∧
    (trySendPending st).1.nextSeq ≤ st.base + st.window := by
  induction st using trySendPending.induct with
  | case1 x h text seq wasEmpty st1 r1 ih =>
      intro h1 h2
      unfold_let r1 st1 wasEmpty seq text at ih
      rw [trySendPending, dif_pos h]
      rcases hw : x.unacked.isEmpty with _ | _
      · simp only [hw, Bool.false_eq_true, dite_false, restart_fst] at ih ⊢
        simpa [restart_fst] using ih (by omega) (by omega)
      · simp only [hw, dite_true, restart_fst] at ih ⊢
        simpa [restart_fst] using ih (by omega) (by omega)
  | case2 x h hc =>
      intro h1 h2
      rw [trySendPending, dif_neg h, if_pos hc]
      simpa using ⟨h1, h2⟩
  | case3 x h hc =>
      intro h1 h2
      rw [trySendPending, dif_neg h, if_neg hc]
      simpa using ⟨h1, h2⟩

end Sender

namespace Sender

theorem disarm_fst (st : State) : (disarm st).1 = { st with timerActive := false } := by
  unfold disarm
  rcases h : st.timerActive with _ | _
  · cases st
    simp_all
  · simp

theorem onTimer_fst (st : State) (n : String) :
    (onTimer st n).1 =
      if n ≠ "rtx" then st
      else if st.unacked.isEmpty then { st with timerActive := false }
      else { st with timerActive := true } := by
  unfold onTimer
  split
  · rfl
  · simp only []
    split <;> rfl

theorem onLocal_fst (st : State) (m : Msg) :
    (onLocalMessage st m).1 =
      if m.type ≠ "MESSAGE" then st
      else if hasWindowSpace st then
        { st with nextSeq := st.nextSeq + 1,
                  unacked := dinsert st.nextSeq m.text st.unacked,
                  timerActive := (st.unacked.isEmpty || st.timerActive) }
      else { st with pending := st.pending ++ [m.text] } := by
  unfold onLocalMessage
  split
  · rfl
  · split
    · simp only []
      rcases hw : st.unacked.isEmpty with _ | _
      · simp [hw]
      · simp [hw, restart_fst]
    · rfl

theorem onAck_fst (st : State) (m : Msg) :
    (onMessage st m).1 =
      if m.type ≠ "ACK" then st
      else
        (trySendPending
          { st with
            unacked := st.unacked.filter (fun p => ¬ p.1 == m.seq),
            base := slideBase st.base st.nextSeq
              (st.unacked.filter (fun p => ¬ p.1 == m.seq)),
            timerActive :=
              if (st.unacked.filter (fun p => ¬ p.1 == m.seq)).isEmpty then false
              else if st.base < slideBase st.base st.nextSeq
                  (st.unacked.filter (fun p => ¬ p.1 == m.seq)) then true
              else st.timerActive }).1 := by
  unfold onMessage
  split
  · rfl
  · simp only []
    split
    · rw [disarm_fst]
    · split
      · rw [restart_fst]
      · rfl

theorem step_wi (st : State) (ev : Ev) (h1 : WinWF st) :
    WinWF (step st ev).1 ∧ (step st ev).1.window = st.window := by
  obtain ⟨ha, hb⟩ := h1
  cases ev with
  | app m =>
      show WinWF (onLocalMessage st m).1 ∧ (onLocalMessage st m).1.window = st.window
      rw [onLocal_fst]
      split
      · exact ⟨⟨ha, hb⟩, rfl⟩
      · split
        · next hs =>
            simp only [hasWindowSpace, decide_eq_true_eq] at hs
            exact ⟨⟨show st.base ≤ st.nextSeq + 1 by omega,
                    show st.nextSeq + 1 ≤ st.base + st.window by omega⟩, rfl⟩
        · exact ⟨⟨ha, hb⟩, rfl⟩
  | wire m =>
      show WinWF (onMessage st m).1 ∧ (onMessage st m).1.window = st.window
      rw [onAck_fst]
      split
      · exact ⟨⟨ha, hb⟩, rfl⟩
      · set u1 := st.unacked.filter (fun p => ¬ p.1 == m.seq) with hu
        set b1 := slideBase st.base st.nextSeq u1 with hb1def
        set T := (if u1.isEmpty then false
          else if st.base < b1 then true else st.timerActive) with hT
        have hge := slideBase_ge st.base st.nextSeq u1
        have hle := slideBase_le st.base st.nextSeq u1 ha
        rw [← hb1def] at hge hle
        obtain ⟨c1, c2, c3, c4⟩ :=
          trySend_wi { st with unacked := u1, base := b1, timerActive := T }
            (show b1 ≤ st.nextSeq from hle)
            (show st.nextSeq ≤ b1 + st.window by omega)
        simp only [] at c1 c2 c3 c4
        constructor
        · constructor
          · show _ ≤ _
            omega
          · show _ ≤ _ + _
            omega
        · show _ = _
          omega
  | timer n =>
      show WinWF (onTimer st n).1 ∧ (onTimer st n).1.window = st.window
      rw [onTimer_fst]
      split
      · exact ⟨⟨ha, hb⟩, rfl⟩
      · split <;> exact ⟨⟨ha, hb⟩, rfl⟩

theorem run_wi (es : List Ev) (st : State) (h1 : WinWF st) :
    WinWF (runState st es) ∧ (runState st es).window = st.window := by
  induction es generalizing st with
  | nil => exact ⟨h1, rfl⟩
  | cons e es ih =>
      obtain ⟨hw, hwin⟩ := step_wi st e h1
      obtain ⟨r1, r2⟩ := ih (step st e).1 hw
      exact ⟨r1, by rw [runState]; omega⟩

end Sender

/-- C3: window invariant of the windowed reliable sender.  In every
state reachable from the initial state by any interleaving of
application inputs, ACK (wire) arrivals, and timer fires,
`next_seq - base` never exceeds the configured window size: 10 for the
at-least-once and exactly-once (dedup) variants, 4 for the
exactly-once-ordered variant. -/
theorem sender_window_invariant (es : List Sender.Ev) :
    (Sender.runState Sender.atLeastOnceInit es).nextSeq
      - (Sender.runState Sender.atLeastOnceInit es).base ≤ 10 ∧
    (Sender.runState Sender.exactlyOnceInit es).nextSeq
      - (Sender.runState Sender.exactlyOnceInit es).base ≤ 10 ∧
    (Sender.runState Sender.exactlyOnceOrderedInit es).nextSeq
      - (Sender.runState Sender.exactlyOnceOrderedInit es).base ≤ 4 := by
  refine ⟨?_, ?_, ?_⟩
  · obtain ⟨⟨h1, h2⟩, h3⟩ := Sender.run_wi es Sender.atLeastOnceInit ⟨by decide, by decide⟩
    have : (Sender.runState Sender.atLeastOnceInit es).window = 10 := h3
    omega
  · obtain ⟨⟨h1, h2⟩, h3⟩ := Sender.run_wi es Sender.exactlyOnceInit ⟨by decide, by decide⟩
    have : (Sender.runState Sender.exactlyOnceInit es).window = 10 := h3
    omega
  · obtain ⟨⟨h1, h2⟩, h3⟩ := Sender.run_wi es Sender.exactlyOnceOrderedInit ⟨by decide, by decide⟩
    have : (Sender.runState Sender.exactlyOnceOrderedInit es).window = 4 := h3
    omega

namespace ExactlyOnceReceiver

theorem growWin_ge (offset w : Nat) : w ≤ growWin offset w := by
  induction w using growWin.induct offset with
  | case1 x h ih =>
      rw [growWin, dif_pos h]
      omega
  | case2 x h =>
      rw [growWin, dif_neg h]

theorem growWin_fix (offset w : Nat) :
    ¬(0 < growWin offset w ∧ growWin offset w ≤ offset ∧ growWin offset w < 1024) := by
  induction w using growWin.induct offset with
  | case1 x h ih =>
      rw [growWin, dif_pos h]
      exact ih
  | case2 x h =>
      rw [growWin, dif_neg h]
      exact h

theorem getD_map_range (n : Nat) (f : Nat → Bool) (d : Nat) :
    ((List.range n).map f).getD d false = if d < n then f d else false := by
  rcases Nat.lt_or_ge d n with h | h
  · rw [if_pos h]
    rw [List.getD_eq_getElem?_getD, List.getElem?_map, List.getElem?_range h]
    rfl
  · rw [if_neg (by omega)]
    rw [List.getD_eq_getElem?_getD, List.getElem?_map, List.getElem?_eq_none (by simpa using h)]
    rfl

end ExactlyOnceReceiver

/-- C8: dedup bitmap growth.  `_ensure_window` never shrinks the
bitmap, always grows it so that `offset` fits, falls back to exactly
`offset + 1` when the doubling loop stops at the 1024 ceiling while
still too small, and preserves every existing flag at its offset
relative to `next_seq`.  Concretely, from the initial state (win = 32,
next_seq = 1), the arrival of `DATA{seq=100}` grows the bitmap to
capacity 128 ≥ 101. -/
theorem growWin_99_32 : ExactlyOnceReceiver.growWin 99 32 = 128 := by
  simp [ExactlyOnceReceiver.growWin]

theorem ensureWindow_99_init : ExactlyOnceReceiver.ensureWindow 99 ExactlyOnceReceiver.init
    = ⟨1, 128, 0, List.replicate 128 false⟩ := by
  simp [ExactlyOnceReceiver.ensureWindow, ExactlyOnceReceiver.init, growWin_99_32]
  decide

/-- C8: dedup bitmap growth.  `_ensure_window` never shrinks the
bitmap, always grows it so that `offset` fits, falls back to exactly
`offset + 1` when the doubling loop stops while still too small, and
preserves every existing flag at its offset relative to `next_seq`.
Concretely, from the initial state (win = 32, next_seq = 1), the
arrival of `DATA{seq=100}` grows the bitmap to capacity 128 ≥ 101. -/
theorem exactly_once_bitmap_growth (st : ExactlyOnceReceiver.State) (offset : Nat) :
    st.win ≤ (ExactlyOnceReceiver.ensureWindow offset st).win ∧
    offset < (ExactlyOnceReceiver.ensureWindow offset st).win ∧
    (ExactlyOnceReceiver.ensureWindow offset st).nextSeq = st.nextSeq ∧
    (∀ d, d < st.win →
      ExactlyOnceReceiver.bitAt (ExactlyOnceReceiver.ensureWindow offset st) d
        = ExactlyOnceReceiver.bitAt st d) ∧
    (st.win ≤ offset → ExactlyOnceReceiver.growWin offset st.win ≤ offset →
      (ExactlyOnceReceiver.ensureWindow offset st).win = offset + 1) ∧
    101 ≤ (ExactlyOnceReceiver.onMessage ExactlyOnceReceiver.init ⟨"DATA", 100, "x"⟩).1.win := by
  have hconc : (ExactlyOnceReceiver.onMessage ExactlyOnceReceiver.init ⟨"DATA", 100, "x"⟩).1.win
      = 128 := by
    rw [ExactlyOnceReceiver.onMessage]
    have hn : ExactlyOnceReceiver.init.nextSeq = 1 := rfl
    rw [hn]
    norm_num
    split <;> simp [ensureWindow_99_init]
  have hbits : ∀ nw, st.win ≤ nw → ∀ d, d < st.win →
      ExactlyOnceReceiver.bitAt
        ⟨st.nextSeq, nw, 0, (List.range nw).map (fun e =>
          if e < min st.win nw then st.seen.getD ((st.head + e) % st.win) false else false)⟩ d
        = ExactlyOnceReceiver.bitAt st d := by
    intro nw hnw d hd
    unfold ExactlyOnceReceiver.bitAt
    simp only [Nat.zero_add]
    rw [Nat.mod_eq_of_lt (show d < nw by omega)]
    rw [ExactlyOnceReceiver.getD_map_range]
    rw [if_pos (by omega), if_pos (by omega)]
  rcases Nat.lt_or_ge offset st.win with hlt | hge
  · rw [ExactlyOnceReceiver.ensureWindow, if_pos hlt]
    exact ⟨Nat.le_refl _, hlt, rfl, fun d _ => rfl,
      fun h1 _ => absurd h1 (by omega), by omega⟩
  · rw [ExactlyOnceReceiver.ensureWindow, if_neg (by omega)]
    simp only []
    have hg := ExactlyOnceReceiver.growWin_ge offset st.win
    by_cases hc : ExactlyOnceReceiver.growWin offset st.win ≤ offset
    · rw [if_pos hc]
      refine ⟨by omega, by omega, by trivial, ?_, fun _ _ => by trivial, by omega⟩
      exact hbits (offset + 1) (by omega)
    · rw [if_neg hc]
      refine ⟨by omega, by omega, by trivial, ?_, fun _ h2 => absurd h2 hc, by omega⟩
      exact hbits _ (by omega)

/-- Witness for C8: concrete instances of the growth properties — the
exact-fit fallback at offset 2000 (past the 1024 doubling ceiling)
expands the bitmap to exactly 2001, and growth from the initial state
at offset 99 never shrinks the capacity. -/
theorem exactly_once_bitmap_growth_witness :
    (ExactlyOnceReceiver.ensureWindow 2000 ExactlyOnceReceiver.init).win = 2001 ∧
    ExactlyOnceReceiver.init.win ≤ (ExactlyOnceReceiver.ensureWindow 99 ExactlyOnceReceiver.init).win ∧
    101 ≤ (ExactlyOnceReceiver.onMessage ExactlyOnceReceiver.init ⟨"DATA", 100, "x"⟩).1.win :=
  ⟨(exactly_once_bitmap_growth ExactlyOnceReceiver.init 2000).2.2.2.2.1
      (by decide) (by simp [ExactlyOnceReceiver.growWin, ExactlyOnceReceiver.init]),
   (exactly_once_bitmap_growth ExactlyOnceReceiver.init 99).1,
   (exactly_once_bitmap_growth ExactlyOnceReceiver.init 99).2.2.2.2.2⟩

theorem lookup_none_iff {k : Nat} {l : List (Nat × String)} :
    l.lookup k = none ↔ k ∉ l.map Prod.fst := by
  induction l with
  | nil => simp
  | cons p ps ih =>
      obtain ⟨a, b⟩ := p
      by_cases hka : k = a
      · subst hka
        simp [List.lookup_cons]
      · have hk : (k == a) = false := by simpa using hka
        simp [List.lookup_cons, hk, hka, ih]

theorem keys_eraseP (l : List (Nat × String)) (x k : Nat)
    (hn : (l.map Prod.fst).Nodup) :
    k ∈ (l.eraseP (fun p => p.1 == x)).map Prod.fst ↔
      k ∈ l.map Prod.fst ∧ k ≠ x := by
  induction l with
  | nil => simp
  | cons p ps ih =>
      rw [List.map_cons, List.nodup_cons] at hn
      rcases hx : (p.1 == x) with _ | _
      · rw [List.eraseP_cons_of_neg (by simp [hx])]
        have hne : p.1 ≠ x := by simpa using hx
        simp only [List.map_cons, List.mem_cons]
        rw [ih hn.2]
        constructor
        · intro h
          rcases h with h | h
          · exact ⟨Or.inl h, by omega⟩
          · exact ⟨Or.inr h.1, h.2⟩
        · intro h
          rcases h.1 with h1 | h1
          · exact Or.inl h1
          · exact Or.inr ⟨h1, h.2⟩
      · rw [List.eraseP_cons_of_pos (by simp [hx])]
        have hpx : p.1 = x := by simpa using hx
        simp only [List.map_cons, List.mem_cons]
        constructor
        · intro h
          refine ⟨Or.inr h, ?_⟩
          intro hkx
          apply hn.1
          rw [hpx, ← hkx]
          exact h
        · intro h
          rcases h.1 with h1 | h1
          · omega
          · exact h1

theorem flushBuf_none {next : Nat} {buf : List (Nat × String)}
    (h : buf.lookup next = none) : flushBuf next buf = (next, buf, []) := by
  rw [flushBuf]
  split
  · rfl
  · next t heq =>
      rw [h] at heq
      cases heq

theorem flushBuf_some {next : Nat} {buf : List (Nat × String)} {t : String}
    (h : buf.lookup next = some t) :
    flushBuf next buf
      = ((flushBuf (next + 1) (buf.eraseP (fun p => p.1 == next))).1,
         (flushBuf (next + 1) (buf.eraseP (fun p => p.1 == next))).2.1,
         t :: (flushBuf (next + 1) (buf.eraseP (fun p => p.1 == next))).2.2) := by
  rw [flushBuf]
  split
  · next heq =>
      rw [h] at heq
      cases heq
  · next t' heq =>
      rw [h] at heq
      cases heq
      rfl

theorem flushBuf_spec (f : Nat → String) (next : Nat) (buf : List (Nat × String))
    (hv : ∀ p ∈ buf, p.2 = f p.1) (hn : (buf.map Prod.fst).Nodup) :
    next ≤ (flushBuf next buf).1 ∧
    (flushBuf next buf).2.2
      = (List.range' next ((flushBuf next buf).1 - next)).map f ∧
    (∀ p ∈ (flushBuf next buf).2.1, p.2 = f p.1) ∧
    ((flushBuf next buf).2.1.map Prod.fst).Nodup ∧
    (∀ k, k ∈ (flushBuf next buf).2.1.map Prod.fst ↔
      (k ∈ buf.map Prod.fst ∧ ¬(next ≤ k ∧ k < (flushBuf next buf).1))) ∧
    (flushBuf next buf).1 ∉ buf.map Prod.fst ∧
    (∀ k, next ≤ k → k < (flushBuf next buf).1 → k ∈ buf.map Prod.fst) := by
  induction next, buf using flushBuf.induct with
  | case1 next buf hl =>
      rw [flushBuf_none hl]
      refine ⟨Nat.le_refl _, by simp, hv, hn, ?_, lookup_none_iff.mp hl, ?_⟩
      · intro k
        constructor
        · intro h
          exact ⟨h, by omega⟩
        · intro h
          exact h.1
      · intro k h1 h2
        omega
  | case2 next buf t hl hlen ih =>
      rw [flushBuf_some hl]
      have hmem : (next, t) ∈ buf := lookup_some_mem hl
      have hsub : (buf.eraseP (fun p => p.1 == next)).Sublist buf := List.eraseP_sublist _
      have hv' : ∀ p ∈ buf.eraseP (fun p => p.1 == next), p.2 = f p.1 :=
        fun p hp => hv p (hsub.mem hp)
      have hn' : ((buf.eraseP (fun p => p.1 == next)).map Prod.fst).Nodup :=
        (hsub.map Prod.fst).nodup hn
      obtain ⟨c1, c2, c3, c4, c5, c6, c7⟩ := ih hv' hn'
      have hkeys := fun k => keys_eraseP buf next k hn
      have htf : t = f next := hv _ hmem
      refine ⟨by omega, ?_, c3, c4, ?_, ?_, ?_⟩
      · rw [c2, htf]
        have hr : (flushBuf (next + 1) (buf.eraseP (fun p => p.1 == next))).1 - next
            = ((flushBuf (next + 1) (buf.eraseP (fun p => p.1 == next))).1 - (next + 1)) + 1 := by
          omega
        rw [hr, List.range'_succ, List.map_cons]
      · intro k
        rw [c5 k, hkeys k]
        constructor
        · intro h
          exact ⟨h.1.1, by omega⟩
        · intro h
          have hkne : k ≠ next := by
            intro he
            exact h.2 ⟨by omega, by omega⟩
          exact ⟨⟨h.1, hkne⟩, by omega⟩
      · intro hc
        have : (flushBuf (next + 1) (buf.eraseP (fun p => p.1 == next))).1
            ∈ (buf.eraseP (fun p => p.1 == next)).map Prod.fst :=
          (hkeys _).mpr ⟨hc, by omega⟩
        exact c6 this
      · intro k h1 h2
        rcases Nat.eq_or_lt_of_le h1 with he | hlt
        · rw [← he]
          exact List.mem_map_of_mem Prod.fst hmem
        · have := c7 k (by omega) h2
          exact ((hkeys k).mp this).1

theorem keyMem_iff {k : Nat} {l : List (Nat × String)} :
    keyMem k l = true ↔ k ∈ l.map Prod.fst := by
  constructor
  · intro h
    rcases List.any_eq_true.mp h with ⟨p, hp, hb⟩
    exact List.mem_map.mpr ⟨p, hp, by simpa using hb⟩
  · intro h
    rcases List.mem_map.mp h with ⟨p, hp, he⟩
    exact List.any_eq_true.mpr ⟨p, hp, by simpa using he⟩

namespace ExactlyOnceOrderedReceiver

/-- Extract the delivered texts from an output list. -/
def dtexts (outs : List Out) : List String :=
  outs.filterMap (fun o => match o with | Out.deliver t => some t | _ => none)

theorem runDelivered_cons (st : State) (m : Msg) (ms : List Msg) :
    runDelivered st (m :: ms)
      = dtexts (onMessage st m).2 ++ runDelivered (onMessage st m).1 ms := by
  simp [runDelivered, runOuts, dtexts, List.filterMap_append]

theorem runDelivered_nil (st : State) : runDelivered st [] = [] := rfl

theorem onMessage_data_lt (st : State) (s : Nat) (t : String) (h : s < st.nextSeq) :
    onMessage st ⟨"DATA", s, t⟩ = (st, [Out.sendAck s]) := by
  rw [onMessage]
  simp only []
  rw [if_neg (by simp), if_pos h]

theorem onMessage_data_eq (st : State) (t : String) :
    onMessage st ⟨"DATA", st.nextSeq, t⟩
      = (⟨(flushBuf (st.nextSeq + 1) st.buffer).1, (flushBuf (st.nextSeq + 1) st.buffer).2.1⟩,
         Out.deliver t :: (flushBuf (st.nextSeq + 1) st.buffer).2.2.map Out.deliver
           ++ [Out.sendAck st.nextSeq]) := by
  rw [onMessage]
  simp only []
  rw [if_neg (by simp), if_neg (by omega)]
  simp

theorem onMessage_data_gt_mem (st : State) (s : Nat) (t : String) (h : st.nextSeq < s)
    (hm : keyMem s st.buffer = true) :
    onMessage st ⟨"DATA", s, t⟩ = (st, [Out.sendAck s]) := by
  rw [onMessage]
  simp only []
  rw [if_neg (by simp), if_neg (by omega), if_neg (by omega), if_pos hm]

theorem onMessage_data_gt_new (st : State) (s : Nat) (t : String) (h : st.nextSeq < s)
    (hm : keyMem s st.buffer = false) :
    onMessage st ⟨"DATA", s, t⟩
      = ({ st with buffer := st.buffer ++ [(s, t)] }, [Out.sendAck s]) := by
  rw [onMessage]
  simp only []
  rw [if_neg (by simp), if_neg (by omega), if_neg (by omega), if_neg (by simp [hm])]

theorem dtexts_map_deliver (l : List String) : dtexts (l.map Out.deliver) = l := by
  induction l with
  | nil => rfl
  | cons a l ih =>
      simp only [List.map_cons, dtexts, List.filterMap_cons] at ih ⊢
      rw [ih]

theorem dtexts_step (t : String) (l : List String) (a : Nat) :
    dtexts (Out.deliver t :: l.map Out.deliver ++ [Out.sendAck a]) = t :: l := by
  have h := dtexts_map_deliver l
  simp only [dtexts, List.filterMap_cons, List.filterMap_append] at h ⊢
  rw [h]
  simp

theorem keys_gt_of_WF {st : State} (hk : ∀ p ∈ st.buffer, st.nextSeq < p.1)
    {k : Nat} (h : k ∈ st.buffer.map Prod.fst) : st.nextSeq < k := by
  rcases List.mem_map.mp h with ⟨q, hq, hqe⟩
  rw [← hqe]
  exact hk q hq

theorem eoo_step (f : Nat → String) (st : State) (s : Nat)
    (hwf : WF f st) (h1 : 1 ≤ st.nextSeq) :
    WF f (onMessage st ⟨"DATA", s, f s⟩).1 ∧
    st.nextSeq ≤ (onMessage st ⟨"DATA", s, f s⟩).1.nextSeq ∧
    dtexts (onMessage st ⟨"DATA", s, f s⟩).2
      = (List.range' st.nextSeq
          ((onMessage st ⟨"DATA", s, f s⟩).1.nextSeq - st.nextSeq)).map f := by
  obtain ⟨hk, hn, hv⟩ := hwf
  rcases Nat.lt_trichotomy s st.nextSeq with hlt | heq | hgt
  · rw [onMessage_data_lt st s (f s) hlt]
    exact ⟨⟨hk, hn, hv⟩, Nat.le_refl _, by simp [dtexts]⟩
  · subst heq
    rw [onMessage_data_eq st (f st.nextSeq)]
    obtain ⟨c1, c2, c3, c4, c5, c6, c7⟩ :=
      flushBuf_spec f (st.nextSeq + 1) st.buffer (fun p hp => hv p hp) hn
    refine ⟨⟨?_, c4, c3⟩, by simp only []; omega, ?_⟩
    · intro p hp
      have hmem := (c5 p.1).mp (List.mem_map_of_mem Prod.fst hp)
      have hgtk : st.nextSeq < p.1 := keys_gt_of_WF hk hmem.1
      have hne : p.1 ≠ (flushBuf (st.nextSeq + 1) st.buffer).1 := by
        intro he
        rw [he] at hmem
        exact c6 hmem.1
      have := hmem.2
      simp only []
      omega
    · simp only []
      rw [show (flushBuf (st.nextSeq + 1) st.buffer).1 - st.nextSeq
            = ((flushBuf (st.nextSeq + 1) st.buffer).1 - (st.nextSeq + 1)) + 1 by omega]
      rw [List.range'_succ, List.map_cons, ← c2]
      exact dtexts_step (f st.nextSeq) _ st.nextSeq
  · rcases hm : keyMem s st.buffer with _ | _
    · rw [onMessage_data_gt_new st s (f s) hgt hm]
      refine ⟨⟨?_, ?_, ?_⟩, Nat.le_refl _, by simp [dtexts]⟩
      · intro p hp
        rcases List.mem_append.mp hp with hp | hp
        · exact hk p hp
        · simp only [List.mem_singleton] at hp
          rw [hp]
          exact hgt
      · rw [List.map_append]
        rw [List.nodup_append]
        refine ⟨hn, by simp, ?_⟩
        intro a ha hb
        simp only [List.map_cons, List.map_nil, List.mem_singleton] at hb
        rw [hb] at ha
        have hs : s ∉ st.buffer.map Prod.fst := by
          intro hmem
          rw [keyMem_iff.mpr hmem] at hm
          cases hm
        exact hs ha
      · intro p hp
        rcases List.mem_append.mp hp with hp | hp
        · exact hv p hp
        · simp only [List.mem_singleton] at hp
          rw [hp]
    · rw [onMessage_data_gt_mem st s (f s) hgt hm]
      exact ⟨⟨hk, hn, hv⟩, Nat.le_refl _, by simp [dtexts]⟩

end ExactlyOnceOrderedReceiver

theorem range'_glue (a b c : Nat) (h1 : a ≤ b) (h2 : b ≤ c) :
    List.range' a (b - a) ++ List.range' b (c - b) = List.range' a (c - a) := by
  have h := List.range'_append_1 a (b - a) (c - b)
  rw [show a + (b - a) = b by omega] at h
  rw [h]
  congr 1
  omega

namespace ExactlyOnceOrderedReceiver

theorem eoo_run (f : Nat → String) (seqs : List Nat) :
    ∀ st : State, WF f st → 1 ≤ st.nextSeq →
    WF f (runState st (seqs.map (fun s => ⟨"DATA", s, f s⟩))) ∧
    st.nextSeq ≤ (runState st (seqs.map (fun s => ⟨"DATA", s, f s⟩))).nextSeq ∧
    runDelivered st (seqs.map (fun s => ⟨"DATA", s, f s⟩))
      = (List.range' st.nextSeq
          ((runState st (seqs.map (fun s => ⟨"DATA", s, f s⟩))).nextSeq - st.nextSeq)).map f := by
  induction seqs with
  | nil =>
      intro st hwf h1
      exact ⟨hwf, Nat.le_refl _, by simp [runState, runDelivered, runOuts]⟩
  | cons s rest ih =>
      intro st hwf h1
      obtain ⟨w1, w2, w3⟩ := eoo_step f st s hwf h1
      obtain ⟨r1, r2, r3⟩ := ih (onMessage st ⟨"DATA", s, f s⟩).1 w1 (by omega)
      rw [List.map_cons]
      refine ⟨?_, ?_, ?_⟩
      · rw [runState]
        exact r1
      · rw [runState]
        omega
      · rw [runDelivered_cons, w3]
        rw [show runState (onMessage st ⟨"DATA", s, f s⟩).1
              (rest.map (fun q => ⟨"DATA", q, f q⟩))
            = runState st (⟨"DATA", s, f s⟩ :: rest.map (fun q => ⟨"DATA", q, f q⟩))
          from rfl] at r2 r3
        rw [r3, ← List.map_append]
        rw [range'_glue st.nextSeq (onMessage st ⟨"DATA", s, f s⟩).1.nextSeq
          (runState st (⟨"DATA", s, f s⟩ :: rest.map (fun q => ⟨"DATA", q, f q⟩))).nextSeq
          w2 r2]

end ExactlyOnceOrderedReceiver

/-- C2: exactly-once-ordered receiver.  For any sequence of DATA
arrivals from a fixed sender (texts determined by an arbitrary
assignment `f` of texts to sequence numbers, with arbitrary
duplication and reordering of the sequence numbers), the texts
delivered to the application are exactly `f 1, f 2, ..., f m` in that
order (where `m + 1` is the receiver's final `next_seq`): strictly
increasing sequence order, no duplicates, no gaps — the k-th delivery
is the text of seq k, and seq k+1 is never delivered before seq k. -/
theorem ordered_receiver_delivers_in_order (f : Nat → String) (seqs : List Nat) :
    ExactlyOnceOrderedReceiver.runDelivered ExactlyOnceOrderedReceiver.init
        (seqs.map (fun s => ⟨"DATA", s, f s⟩))
      = (List.range' 1
          ((ExactlyOnceOrderedReceiver.runState ExactlyOnceOrderedReceiver.init
            (seqs.map (fun s => ⟨"DATA", s, f s⟩))).nextSeq - 1)).map f := by
  have hwf : ExactlyOnceOrderedReceiver.WF f ExactlyOnceOrderedReceiver.init := by
    unfold ExactlyOnceOrderedReceiver.WF ExactlyOnceOrderedReceiver.init
    simp
  have := ExactlyOnceOrderedReceiver.eoo_run f seqs ExactlyOnceOrderedReceiver.init hwf
    (by simp [ExactlyOnceOrderedReceiver.init])
  exact this.2.2

theorem lookup_of_mem_nodup {l : List (Nat × String)}
    (hn : (l.map Prod.fst).Nodup) {p : Nat × String} (hp : p ∈ l) :
    l.lookup p.1 = some p.2 := by
  induction l with
  | nil => cases hp
  | cons q qs ih =>
      rw [List.map_cons, List.nodup_cons] at hn
      rcases List.mem_cons.mp hp with he | hm
      · subst he
        obtain ⟨a, b⟩ := p
        simp [List.lookup_cons]
      · obtain ⟨a, b⟩ := q
        have hne : p.1 ≠ a := by
          intro he
          exact hn.1 (List.mem_map.mpr ⟨p, hm, he⟩)
        rw [List.lookup_cons]
        have : (p.1 == a) = false := by simpa using hne
        rw [this]
        exact ih hn.2 hm

namespace AtMostOnceReceiver

theorem foldl_min_le_init (ps : List (Nat × String)) (a : Nat) :
    ps.foldl (fun x q => min x q.1) a ≤ a := by
  induction ps generalizing a with
  | nil => simp
  | cons q qs ih =>
      rw [List.foldl_cons]
      exact (ih (min a q.1)).trans (by omega)

theorem foldl_min_le_mem (ps : List (Nat × String)) (a : Nat) :
    ∀ q ∈ ps, ps.foldl (fun x r => min x r.1) a ≤ q.1 := by
  induction ps generalizing a with
  | nil => intro q hq; cases hq
  | cons r rs ih =>
      intro q hq
      rw [List.foldl_cons]
      rcases List.mem_cons.mp hq with he | hm
      · subst he
        exact (foldl_min_le_init rs (min a q.1)).trans (by omega)
      · exact ih (min a r.1) q hm

theorem foldl_min_mem (ps : List (Nat × String)) (a : Nat) :
    ps.foldl (fun x r => min x r.1) a = a ∨
    ps.foldl (fun x r => min x r.1) a ∈ ps.map Prod.fst := by
  induction ps generalizing a with
  | nil => simp
  | cons r rs ih =>
      rw [List.foldl_cons]
      rcases ih (min a r.1) with h | h
      · rcases Nat.le_total a r.1 with hle | hle
        · left
          rw [h]
          omega
        · right
          rw [List.map_cons, h]
          have he : min a r.1 = r.1 := by omega
          rw [he]
          exact List.mem_cons_self _ _
      · right
        rw [List.map_cons]
        exact List.mem_cons_of_mem _ h

theorem minKey_le (l : List (Nat × String)) : ∀ p ∈ l, minKey l ≤ p.1 := by
  intro p hp
  cases l with
  | nil => cases hp
  | cons q qs =>
      rw [minKey]
      rcases List.mem_cons.mp hp with he | hm
      · subst he
        exact foldl_min_le_init qs p.1
      · exact foldl_min_le_mem qs q.1 p hm

theorem minKey_mem (l : List (Nat × String)) (h : l ≠ []) :
    minKey l ∈ l.map Prod.fst := by
  cases l with
  | nil => exact absurd rfl h
  | cons q qs =>
      rw [minKey]
      rcases foldl_min_mem qs q.1 with he | hm
      · rw [List.map_cons, he]
        exact List.mem_cons_self _ _
      · rw [List.map_cons]
        exact List.mem_cons_of_mem _ hm

theorem flushBuf_len (next : Nat) (buf : List (Nat × String)) :
    (flushBuf next buf).2.1.length ≤ buf.length := by
  induction next, buf using flushBuf.induct with
  | case1 next buf hl =>
      rw [flushBuf_none hl]
  | case2 next buf t hl hlen ih =>
      rw [flushBuf_some hl]
      simp only []
      omega

theorem onMessage_data_lt_amo (st : State) (s : Nat) (t : String) (h : s < st.nextSeq) :
    onMessage st ⟨"DATA", s, t⟩ = (st, []) := by
  rw [onMessage]
  simp only []
  rw [if_neg (by simp), if_pos h]

theorem onMessage_insert_nocap (st : State) (s : Nat) (t : String)
    (h1 : st.nextSeq < s) (h2 : keyMem s st.buffer = false)
    (h3 : st.buffer.length + 1 ≤ maxBuffer) :
    onMessage st ⟨"DATA", s, t⟩ = ({ st with buffer := st.buffer ++ [(s, t)] }, []) := by
  rw [onMessage]
  simp only []
  rw [if_neg (show ¬("DATA" ≠ "DATA") by simp),
      if_neg (show ¬(s < st.nextSeq) by omega),
      if_neg (show ¬(s = st.nextSeq) by omega),
      if_neg (show ¬(keyMem s st.buffer = true) by simp [h2])]
  split
  · next hc =>
      simp only [List.length_append, List.length_cons, List.length_nil] at hc
      exact absurd hc (by simp [maxBuffer] at h3 ⊢; omega)
  · rfl

theorem onMessage_insert_cap (st : State) (s : Nat) (t : String)
    (h1 : st.nextSeq < s) (h2 : keyMem s st.buffer = false)
    (h3 : maxBuffer < st.buffer.length + 1) :
    onMessage st ⟨"DATA", s, t⟩
      = ((skipAhead { st with buffer := st.buffer ++ [(s, t)] }).1,
         (skipAhead { st with buffer := st.buffer ++ [(s, t)] }).2) := by
  rw [onMessage]
  simp only []
  rw [if_neg (show ¬("DATA" ≠ "DATA") by simp),
      if_neg (show ¬(s < st.nextSeq) by omega),
      if_neg (show ¬(s = st.nextSeq) by omega),
      if_neg (show ¬(keyMem s st.buffer = true) by simp [h2])]
  split
  · rfl
  · next hc =>
      simp only [List.length_append, List.length_cons, List.length_nil] at hc
      exact absurd hc (by simp [maxBuffer] at h3 ⊢; omega)

theorem skipAhead_eq (st : State) (hne : st.buffer ≠ [])
    (hgt : st.nextSeq < minKey st.buffer) :
    skipAhead st
      = (⟨(flushBuf (minKey st.buffer) st.buffer).1,
          (flushBuf (minKey st.buffer) st.buffer).2.1⟩,
         (flushBuf (minKey st.buffer) st.buffer).2.2.map Out.deliver) := by
  rw [skipAhead]
  rw [if_neg (by simpa [List.isEmpty_iff] using hne)]
  simp only []
  rw [if_neg (by omega)]

end AtMostOnceReceiver

namespace AtMostOnceReceiver

theorem runState_append (xs ys : List Msg) (st : State) :
    runState st (xs ++ ys) = runState (runState st xs) ys := by
  induction xs generalizing st with
  | nil => rfl
  | cons x xs ih =>
      rw [List.cons_append, runState, runState]
      exact ih _

theorem runOuts_append (xs ys : List Msg) (st : State) :
    runOuts st (xs ++ ys) = runOuts st xs ++ runOuts (runState st xs) ys := by
  induction xs generalizing st with
  | nil => rfl
  | cons x xs ih =>
      rw [List.cons_append, runOuts, runOuts, runState]
      rw [ih _, List.append_assoc]

/-- One arrival that pushes a full (12-entry) buffer past the cap from
a well-formed state: the skip-ahead fires, `next_seq` jumps to the
smallest buffered key (which is ahead of the old `next_seq`), the
contiguous run from there is delivered in increasing order, and
exactly that run is removed from the buffer. -/
theorem skip_step (st : State) (s : Nat) (t : String)
    (hk : ∀ p ∈ st.buffer, st.nextSeq < p.1)
    (hn : (st.buffer.map Prod.fst).Nodup)
    (hgt : st.nextSeq < s) (h2 : keyMem s st.buffer = false)
    (h3 : st.buffer.length = maxBuffer) :
    st.nextSeq < minKey (st.buffer ++ [(s, t)]) ∧
    (∀ k ∈ (st.buffer ++ [(s, t)]).map Prod.fst, minKey (st.buffer ++ [(s, t)]) ≤ k) ∧
    minKey (st.buffer ++ [(s, t)]) ≤ (onMessage st ⟨"DATA", s, t⟩).1.nextSeq ∧
    (onMessage st ⟨"DATA", s, t⟩).1.nextSeq ∉ (st.buffer ++ [(s, t)]).map Prod.fst ∧
    (∀ k, minKey (st.buffer ++ [(s, t)]) ≤ k →
      k < (onMessage st ⟨"DATA", s, t⟩).1.nextSeq →
      k ∈ (st.buffer ++ [(s, t)]).map Prod.fst) ∧
    (∀ k, k ∈ (onMessage st ⟨"DATA", s, t⟩).1.buffer.map Prod.fst ↔
      (k ∈ (st.buffer ++ [(s, t)]).map Prod.fst ∧
        ¬(minKey (st.buffer ++ [(s, t)]) ≤ k ∧
          k < (onMessage st ⟨"DATA", s, t⟩).1.nextSeq))) ∧
    (onMessage st ⟨"DATA", s, t⟩).2
      = (List.range' (minKey (st.buffer ++ [(s, t)]))
          ((onMessage st ⟨"DATA", s, t⟩).1.nextSeq - minKey (st.buffer ++ [(s, t)]))).map
          (fun k => Out.deliver (((st.buffer ++ [(s, t)]).lookup k).getD "")) := by
  have hBn : ((st.buffer ++ [(s, t)]).map Prod.fst).Nodup := by
    rw [List.map_append, List.nodup_append]
    refine ⟨hn, by simp, ?_⟩
    intro a ha hb
    simp only [List.map_cons, List.map_nil, List.mem_singleton] at hb
    rw [hb] at ha
    have hs : s ∉ st.buffer.map Prod.fst := by
      intro hmem
      rw [keyMem_iff.mpr hmem] at h2
      cases h2
    exact hs ha
  have hBk : ∀ k ∈ (st.buffer ++ [(s, t)]).map Prod.fst, st.nextSeq < k := by
    intro k hmem
    rw [List.map_append] at hmem
    rcases List.mem_append.mp hmem with h | h
    · rcases List.mem_map.mp h with ⟨q, hq, hqe⟩
      rw [← hqe]
      exact hk q hq
    · simp only [List.map_cons, List.map_nil, List.mem_singleton] at h
      omega
  have hBne : st.buffer ++ [(s, t)] ≠ [] := by simp
  have hm_mem : minKey (st.buffer ++ [(s, t)]) ∈ (st.buffer ++ [(s, t)]).map Prod.fst :=
    minKey_mem _ hBne
  have hm_gt : st.nextSeq < minKey (st.buffer ++ [(s, t)]) := hBk _ hm_mem
  have hm_le : ∀ k ∈ (st.buffer ++ [(s, t)]).map Prod.fst, minKey (st.buffer ++ [(s, t)]) ≤ k := by
    intro k hmem
    rcases List.mem_map.mp hmem with ⟨q, hq, hqe⟩
    rw [← hqe]
    exact minKey_le _ q hq
  have hstep := onMessage_insert_cap st s t hgt h2 (by omega)
  have hskip := skipAhead_eq { st with buffer := st.buffer ++ [(s, t)] } hBne hm_gt
  rw [hstep]
  simp only [hskip]
  obtain ⟨c1, c2, c3, c4, c5, c6, c7⟩ :=
    flushBuf_spec (fun k => (((st.buffer ++ [(s, t)]).lookup k).getD ""))
      (minKey (st.buffer ++ [(s, t)])) (st.buffer ++ [(s, t)])
      (fun p hp => by
        show p.2 = ((st.buffer ++ [(s, t)]).lookup p.1).getD ""
        rw [lookup_of_mem_nodup hBn hp]
        rfl) hBn
  refine ⟨hm_gt, hm_le, c1, c6, c7, c5, ?_⟩
  rw [c2, List.map_map]
  rfl

end AtMostOnceReceiver

namespace AtMostOnceReceiver

theorem fill_run (f : Nat → String) (l : List Nat) :
    ∀ b0 : List (Nat × String), (∀ q ∈ l, 2 ≤ q) → l.Nodup →
    (∀ q ∈ l, keyMem q b0 = false) →
    b0.length + l.length ≤ maxBuffer →
    runState ⟨1, b0⟩ (l.map (fun q => ⟨"DATA", q, f q⟩))
      = ⟨1, b0 ++ l.map (fun q => (q, f q))⟩ ∧
    runOuts ⟨1, b0⟩ (l.map (fun q => ⟨"DATA", q, f q⟩)) = [] := by
  induction l with
  | nil =>
      intro b0 _ _ _ _
      simp [runState, runOuts]
  | cons q rest ih =>
      intro b0 hall hnd hdisj hlen
      have hq2 : 2 ≤ q := hall q (List.mem_cons_self _ _)
      have hstep := onMessage_insert_nocap ⟨1, b0⟩ q (f q) (by simp; omega)
        (hdisj q (List.mem_cons_self _ _)) (by simp at hlen ⊢; omega)
      rw [List.map_cons, runState, runOuts, hstep]
      simp only []
      rw [List.nodup_cons] at hnd
      obtain ⟨r1, r2⟩ := ih (b0 ++ [(q, f q)])
        (fun x hx => hall x (List.mem_cons_of_mem _ hx)) hnd.2
        (fun x hx => by
          have hx1 : keyMem x b0 = false := hdisj x (List.mem_cons_of_mem _ hx)
          have hx2 : x ≠ q := fun he => hnd.1 (he ▸ hx)
          rw [Bool.eq_false_iff]
          intro hc
          rcases List.mem_map.mp (keyMem_iff.mp hc) with ⟨p, hp, hpe⟩
          rcases List.mem_append.mp hp with hp | hp
          · rw [Bool.eq_false_iff] at hx1
            exact hx1 (keyMem_iff.mpr (List.mem_map.mpr ⟨p, hp, hpe⟩))
          · simp only [List.mem_singleton] at hp
            rw [hp] at hpe
            exact hx2 (by simpa using hpe.symm))
        (by simp at hlen ⊢; omega)
      refine ⟨?_, ?_⟩
      · rw [r1]
        simp
      · rw [r2]
        simp

/-- The concrete scenario: sequence numbers 2..14 arrive in any order
(13 arrivals, seq 1 missing).  The first 12 buffer silently; the 13th
overflows the cap, the skip-ahead jumps `next_seq` to 2 and delivers
the texts of 2..14 in increasing order; a later arrival of seq 1 is
discarded. -/
theorem skip_scenario (f : Nat → String) (l : List Nat)
    (hperm : l.Perm (List.range' 2 13)) :
    runState init (l.map (fun q => ⟨"DATA", q, f q⟩)) = ⟨15, []⟩ ∧
    runOuts init (l.map (fun q => ⟨"DATA", q, f q⟩))
      = (List.range' 2 13).map (fun k => Out.deliver (f k)) ∧
    runOuts init ((l.take 12).map (fun q => ⟨"DATA", q, f q⟩)) = [] ∧
    (runState init ((l.take 12).map (fun q => ⟨"DATA", q, f q⟩))).nextSeq = 1 ∧
    onMessage (runState init (l.map (fun q => ⟨"DATA", q, f q⟩))) ⟨"DATA", 1, f 1⟩
      = (⟨15, []⟩, []) := by
  have hlen : l.length = 13 := by
    rw [hperm.length_eq]
    simp
  have hmem : ∀ q, q ∈ l ↔ (2 ≤ q ∧ q < 15) := by
    intro q
    rw [hperm.mem_iff, List.mem_range'_1]
  have hnd : l.Nodup := hperm.nodup_iff.mpr (List.nodup_range' _ _)
  have hinit : (init : State) = ⟨1, []⟩ := rfl
  rw [hinit]
  have htake : ∀ q ∈ l.take 12, 2 ≤ q :=
    fun q hq => ((hmem q).mp (List.mem_of_mem_take hq)).1
  have hndt : (l.take 12).Nodup := hnd.sublist (List.take_sublist _ _)
  obtain ⟨h12a, h12b⟩ := fill_run f (l.take 12) [] htake hndt
    (fun q _ => rfl)
    (by simp only [List.length_nil, List.length_take, maxBuffer, hlen]; omega)
  -- the 13th arrival
  have hdrop : ∃ s13, l.drop 12 = [s13] := by
    have : (l.drop 12).length = 1 := by
      rw [List.length_drop, hlen]
    cases hd : l.drop 12 with
    | nil => rw [hd] at this; cases this
    | cons a as =>
        rw [hd] at this
        simp at this
        exact ⟨a, by rw [this]⟩
  obtain ⟨s13, hs13⟩ := hdrop
  have hsplit : l = l.take 12 ++ [s13] := by
    rw [← hs13, List.take_append_drop]
  have hkeys : ∀ xs : List Nat, ((xs.map (fun q => (q, f q))).map Prod.fst) = xs := by
    intro xs
    rw [List.map_map]
    have hco : (Prod.fst ∘ fun q : Nat => (q, f q)) = id := rfl
    rw [hco, List.map_id]
  have hs13l : s13 ∈ l := by
    rw [hsplit]
    exact List.mem_append_right _ (List.mem_singleton.mpr rfl)
  have hs13b : 2 ≤ s13 ∧ s13 < 15 := (hmem s13).mp hs13l
  have hndsplit : s13 ∉ l.take 12 := by
    have := hsplit ▸ hnd
    rw [List.nodup_append] at this
    intro hc
    exact this.2.2 hc (List.mem_singleton.mpr rfl)
  have hB12len : ((l.take 12).map (fun q => (q, f q))).length = 12 := by
    rw [List.length_map, List.length_take, hlen]
    omega
  have hstep := skip_step ⟨1, (l.take 12).map (fun q => (q, f q))⟩ s13 (f s13)
    (by
      intro p hp
      rcases List.mem_map.mp hp with ⟨q, hq, hqe⟩
      have := htake q hq
      rw [← hqe]
      simp only []
      omega)
    (by rw [hkeys]; exact hndt)
    (by simp only []; omega)
    (by
      rw [Bool.eq_false_iff]
      intro hc
      rw [keyMem_iff, hkeys] at hc
      exact hndsplit hc)
    (by rw [hB12len]; rfl)
  obtain ⟨s1, s2, s3, s4, s5, s6, s7⟩ := hstep
  have hB13 : ((l.take 12).map (fun q => (q, f q))) ++ [(s13, f s13)]
      = l.map (fun q => (q, f q)) := by
    conv_rhs => rw [hsplit]
    rw [List.map_append]
    rfl
  rw [hB13] at s1 s2 s3 s4 s5 s6 s7
  rw [hkeys] at s2 s4 s5 s6
  -- the minimum buffered key is 2
  have hm2 : minKey (l.map (fun q => (q, f q))) = 2 := by
    have hmm : minKey (l.map (fun q => (q, f q))) ∈ l := by
      have := minKey_mem (l.map (fun q => (q, f q))) (by
        intro hc
        have := congrArg List.length hc
        rw [List.length_map, hlen] at this
        cases this)
      rw [hkeys] at this
      exact this
    have h2l : (2 : Nat) ∈ l := (hmem 2).mpr ⟨by omega, by omega⟩
    have hle2 := s2 2 h2l
    have hge2 := ((hmem _).mp hmm).1
    omega
  rw [hm2] at s1 s2 s3 s5 s6 s7
  set res := onMessage ⟨1, (l.take 12).map (fun q => (q, f q))⟩ ⟨"DATA", s13, f s13⟩ with hres
  -- the flush runs exactly to 15
  have hnext : res.1.nextSeq = 15 := by
    by_cases hlt : res.1.nextSeq < 15
    · exfalso
      exact s4 ((hmem _).mpr ⟨by omega, hlt⟩)
    · by_cases hgt15 : 15 < res.1.nextSeq
      · exfalso
        have := s5 15 (by omega) (by omega)
        have := ((hmem 15).mp this).2
        omega
      · omega
  have hbuf : res.1.buffer = [] := by
    rw [← List.map_eq_nil (f := Prod.fst)]
    rw [List.eq_nil_iff_forall_not_mem]
    intro k hk
    have := (s6 k).mp hk
    have hb := (hmem k).mp this.1
    rw [hnext] at this
    exact this.2 ⟨by omega, by omega⟩
  have hstate : res.1 = (⟨15, []⟩ : State) :=
    calc res.1 = ⟨res.1.nextSeq, res.1.buffer⟩ := rfl
    _ = ⟨15, []⟩ := by rw [hnext, hbuf]
  have houts : res.2 = (List.range' 2 13).map (fun k => Out.deliver (f k)) := by
    rw [s7, hnext]
    refine List.map_congr_left ?_
    intro k hkmem
    have hkl : k ∈ l := by
      rw [hperm.mem_iff]
      simpa using hkmem
    have hlk : (l.map (fun q => (q, f q))).lookup k = some (f k) := by
      have hp : ((k, f k) : Nat × String) ∈ l.map (fun q => (q, f q)) :=
        List.mem_map.mpr ⟨k, hkl, rfl⟩
      have := lookup_of_mem_nodup (by rw [hkeys]; exact hnd) hp
      simpa using this
    rw [hlk]
    rfl
  -- assemble the run over the split  l = take 12 ++ [s13]
  have hmap : l.map (fun q => (⟨"DATA", q, f q⟩ : Msg))
      = (l.take 12).map (fun q => ⟨"DATA", q, f q⟩) ++ [⟨"DATA", s13, f s13⟩] := by
    conv_lhs => rw [hsplit]
    rw [List.map_append]
    rfl
  have hrunstate : runState ⟨1, []⟩ (l.map (fun q => ⟨"DATA", q, f q⟩)) = (⟨15, []⟩ : State) := by
    rw [hmap, runState_append, h12a]
    show (onMessage ⟨1, [] ++ (l.take 12).map (fun q => (q, f q))⟩ ⟨"DATA", s13, f s13⟩).1 = _
    rw [List.nil_append]
    exact hstate
  refine ⟨hrunstate, ?_, h12b, by rw [h12a], ?_⟩
  · rw [hmap, runOuts_append, h12b, h12a, List.nil_append]
    show res.2 ++ runOuts res.1 [] = _
    rw [houts]
    simp [runOuts]
  · rw [hrunstate]
    exact onMessage_data_lt_amo _ 1 (f 1) (by simp)

end AtMostOnceReceiver

/-- C7: at-most-once receiver skip-ahead.  (1) From any well-formed
state with a full 12-entry buffer, a fresh out-of-order DATA arrival
pushes the buffer past the cap and forces the skip-ahead: `next_seq`
jumps to the smallest buffered key (which is greater than the current
`next_seq`), the contiguous run of buffered entries starting there is
delivered in increasing order (exactly those entries leave the
buffer), and the new `next_seq` is the first missing key after the
run.  (2) Concretely: sequence numbers 2..14 arriving in any order
buffer silently for 12 arrivals (`next_seq` stays 1), the 13th fires
the skip-ahead, `next_seq` jumps to 2 and the texts of 2..14 are
delivered in increasing order (final state: `next_seq` = 15, empty
buffer), and a subsequent arrival of seq 1 is discarded — seq 1 can
never be delivered. -/
theorem at_most_once_skip_ahead :
    (∀ (st : AtMostOnceReceiver.State) (s : Nat) (t : String),
      (∀ p ∈ st.buffer, st.nextSeq < p.1) →
      (st.buffer.map Prod.fst).Nodup →
      st.nextSeq < s → keyMem s st.buffer = false →
      st.buffer.length = AtMostOnceReceiver.maxBuffer →
      st.nextSeq < AtMostOnceReceiver.minKey (st.buffer ++ [(s, t)]) ∧
      (∀ k ∈ (st.buffer ++ [(s, t)]).map Prod.fst,
        AtMostOnceReceiver.minKey (st.buffer ++ [(s, t)]) ≤ k) ∧
      AtMostOnceReceiver.minKey (st.buffer ++ [(s, t)])
        ≤ (AtMostOnceReceiver.onMessage st ⟨"DATA", s, t⟩).1.nextSeq ∧
      (AtMostOnceReceiver.onMessage st ⟨"DATA", s, t⟩).1.nextSeq
        ∉ (st.buffer ++ [(s, t)]).map Prod.fst ∧
      (∀ k, AtMostOnceReceiver.minKey (st.buffer ++ [(s, t)]) ≤ k →
        k < (AtMostOnceReceiver.onMessage st ⟨"DATA", s, t⟩).1.nextSeq →
        k ∈ (st.buffer ++ [(s, t)]).map Prod.fst) ∧
      (∀ k, k ∈ (AtMostOnceReceiver.onMessage st ⟨"DATA", s, t⟩).1.buffer.map Prod.fst ↔
        (k ∈ (st.buffer ++ [(s, t)]).map Prod.fst ∧
          ¬(AtMostOnceReceiver.minKey (st.buffer ++ [(s, t)]) ≤ k ∧
            k < (AtMostOnceReceiver.onMessage st ⟨"DATA", s, t⟩).1.nextSeq))) ∧
      (AtMostOnceReceiver.onMessage st ⟨"DATA", s, t⟩).2
        = (List.range' (AtMostOnceReceiver.minKey (st.buffer ++ [(s, t)]))
            ((AtMostOnceReceiver.onMessage st ⟨"DATA", s, t⟩).1.nextSeq
              - AtMostOnceReceiver.minKey (st.buffer ++ [(s, t)]))).map
            (fun k => Out.deliver (((st.buffer ++ [(s, t)]).lookup k).getD ""))) ∧
    (∀ (f : Nat → String) (l : List Nat), l.Perm (List.range' 2 13) →
      AtMostOnceReceiver.runState AtMostOnceReceiver.init
          (l.map (fun q => ⟨"DATA", q, f q⟩)) = ⟨15, []⟩ ∧
      AtMostOnceReceiver.runOuts AtMostOnceReceiver.init
          (l.map (fun q => ⟨"DATA", q, f q⟩))
        = (List.range' 2 13).map (fun k => Out.deliver (f k)) ∧
      AtMostOnceReceiver.runOuts AtMostOnceReceiver.init
          ((l.take 12).map (fun q => ⟨"DATA", q, f q⟩)) = [] ∧
      (AtMostOnceReceiver.runState AtMostOnceReceiver.init
          ((l.take 12).map (fun q => ⟨"DATA", q, f q⟩))).nextSeq = 1 ∧
      AtMostOnceReceiver.onMessage
          (AtMostOnceReceiver.runState AtMostOnceReceiver.init
            (l.map (fun q => ⟨"DATA", q, f q⟩))) ⟨"DATA", 1, f 1⟩
        = (⟨15, []⟩, [])) :=
  ⟨AtMostOnceReceiver.skip_step, AtMostOnceReceiver.skip_scenario⟩

/-- Witness for C7: a concrete full buffer (keys 2..13) overflowed by
seq 14 forces a forward jump, and the concrete in-order arrival of
2..14 ends with `next_seq` = 15 and an empty buffer. -/
theorem at_most_once_skip_ahead_witness :
    (1:Nat) < AtMostOnceReceiver.minKey
        ([(2, "b"), (3, "b"), (4, "b"), (5, "b"), (6, "b"), (7, "b"), (8, "b"),
          (9, "b"), (10, "b"), (11, "b"), (12, "b"), (13, "b")] ++ [(14, "b")]) ∧
    AtMostOnceReceiver.runState AtMostOnceReceiver.init
        ((List.range' 2 13).map (fun q => ⟨"DATA", q, toString q⟩)) = ⟨15, []⟩ :=
  ⟨(at_most_once_skip_ahead.1
      ⟨1, [(2, "b"), (3, "b"), (4, "b"), (5, "b"), (6, "b"), (7, "b"), (8, "b"),
           (9, "b"), (10, "b"), (11, "b"), (12, "b"), (13, "b")]⟩ 14 "b"
      (by decide) (by decide) (by decide) (by decide) (by decide)).1,
   (at_most_once_skip_ahead.2 toString (List.range' 2 13) (List.Perm.refl _)).1⟩

namespace Sender

theorem slideBase_not_mem (base next : Nat) (u : List (Nat × String)) :
    ∀ x, base ≤ x → x < slideBase base next u → keyMem x u = false := by
  induction base, next, u using slideBase.induct with
  | case1 b n u h ih =>
      rw [slideBase, dif_pos h]
      intro x hx1 hx2
      rcases Nat.eq_or_lt_of_le hx1 with he | hlt
      · rw [← he]
        exact Bool.not_eq_true _ |>.mp h.2
      · exact ih x hlt hx2
  | case2 b n u h =>
      rw [slideBase, dif_neg h]
      intro x hx1 hx2
      omega

theorem slideBase_stop (base next : Nat) (u : List (Nat × String)) (h : base ≤ next) :
    slideBase base next u = next ∨ keyMem (slideBase base next u) u = true := by
  induction base, next, u using slideBase.induct with
  | case1 b n u hg ih =>
      rw [slideBase, dif_pos hg]
      exact ih (by omega)
  | case2 b n u hg =>
      rw [slideBase, dif_neg hg]
      by_cases hb : b < n
      · right
        rcases hm : keyMem b u with _ | _
        · exact absurd ⟨hb, by simp [hm]⟩ hg
        · rfl
      · left
        omega

theorem keyMem_append (k : Nat) (l1 l2 : List (Nat × String)) :
    keyMem k (l1 ++ l2) = (keyMem k l1 || keyMem k l2) := by
  simp [keyMem, List.any_append]

theorem keyMem_filter (k x : Nat) (l : List (Nat × String)) :
    keyMem k (l.filter (fun p => ¬ p.1 == x)) = true ↔ (keyMem k l = true ∧ k ≠ x) := by
  rw [keyMem_iff, keyMem_iff]
  constructor
  · intro h
    rcases List.mem_map.mp h with ⟨p, hp, hpe⟩
    rw [List.mem_filter] at hp
    refine ⟨List.mem_map.mpr ⟨p, hp.1, hpe⟩, ?_⟩
    have := hp.2
    simp only [decide_eq_true_eq] at this
    rw [← hpe]
    simpa using this
  · intro ⟨h1, h2⟩
    rcases List.mem_map.mp h1 with ⟨p, hp, hpe⟩
    refine List.mem_map.mpr ⟨p, List.mem_filter.mpr ⟨hp, ?_⟩, hpe⟩
    simp only [decide_eq_true_eq]
    simp only [beq_iff_eq]
    rw [hpe]
    exact h2

theorem dinsert_absent (k : Nat) (v : String) (l : List (Nat × String))
    (h : keyMem k l = false) : dinsert k v l = l ++ [(k, v)] := by
  rw [dinsert, if_neg (by simp [h])]

theorem keyMem_self_append (k : Nat) (v : String) (l : List (Nat × String)) :
    keyMem k (l ++ [(k, v)]) = true := by
  rw [keyMem_append]
  simp [keyMem]

end Sender

namespace Sender

theorem send_one_inv (st : State) (text : String) (A : List Nat)
    (h : Inv st A) (hspace : st.nextSeq < st.base + st.window) :
    Inv { st with nextSeq := st.nextSeq + 1,
                  unacked := dinsert st.nextSeq text st.unacked,
                  timerActive := (st.unacked.isEmpty || st.timerActive) } A := by
  obtain ⟨i1, i2, i3, i4, i5, i6, i7, i8⟩ := h
  have habs : keyMem st.nextSeq st.unacked = false := by
    rcases hm : keyMem st.nextSeq st.unacked with _ | _
    · rfl
    · have := (i2 _).mp hm
      omega
  have hu : dinsert st.nextSeq text st.unacked = st.unacked ++ [(st.nextSeq, text)] :=
    dinsert_absent _ _ _ habs
  have hsingle : ∀ s, keyMem s [(st.nextSeq, text)] = true ↔ s = st.nextSeq := by
    intro s
    simp only [keyMem, List.any_cons, List.any_nil, Bool.or_false, beq_iff_eq]
    exact eq_comm
  refine ⟨?_, ?_, ?_, ?_, ?_, ?_, ?_, ?_⟩
  · show ((dinsert st.nextSeq text st.unacked).map Prod.fst).Nodup
    rw [hu, List.map_append, List.nodup_append]
    refine ⟨i1, by simp, ?_⟩
    intro a ha hb
    simp only [List.map_cons, List.map_nil, List.mem_singleton] at hb
    rw [hb] at ha
    rw [← keyMem_iff] at ha
    rw [ha] at habs
    cases habs
  · intro s
    show keyMem s (dinsert st.nextSeq text st.unacked) = true ↔
      (st.base ≤ s ∧ s < st.nextSeq + 1 ∧ s ∉ A)
    rw [hu, keyMem_append, Bool.or_eq_true, i2 s, hsingle s]
    constructor
    · intro hc
      rcases hc with hc | hc
      · exact ⟨hc.1, by omega, hc.2.2⟩
      · subst hc
        refine ⟨i4, by omega, ?_⟩
        intro hmem
        have := i3 _ hmem
        omega
    · intro ⟨hb, hlt, hA⟩
      by_cases he : s = st.nextSeq
      · exact Or.inr he
      · exact Or.inl ⟨hb, by omega, hA⟩
  · intro a ha
    show a < st.nextSeq + 1
    have := i3 a ha
    omega
  · show st.base ≤ st.nextSeq + 1
    omega
  · show st.nextSeq + 1 ≤ st.base + st.window
    omega
  · intro hc
    rw [hu] at hc
    exact absurd hc (by simp)
  · show (st.unacked.isEmpty || st.timerActive) = true ↔
      dinsert st.nextSeq text st.unacked ≠ []
    constructor
    · intro _
      rw [hu]
      simp
    · intro _
      rcases hw : st.unacked.isEmpty with _ | _
      · have hne : st.unacked ≠ [] := by
          intro he
          rw [he] at hw
          cases hw
        rw [i7.mpr hne]
        simp
      · simp
  · intro _
    show keyMem st.base (dinsert st.nextSeq text st.unacked) = true
    rw [hu, keyMem_append, Bool.or_eq_true]
    by_cases hne : st.unacked = []
    · right
      rw [hsingle, i6 hne]
    · left
      exact i8 hne

theorem trySend_inv (st : State) (A : List Nat) :
    Inv st A → Inv (trySendPending st).1 A := by
  induction st using trySendPending.induct with
  | case1 x h text seq wasEmpty st1 r1 ih =>
      intro hInv
      unfold_let r1 st1 wasEmpty seq text at ih
      rw [trySendPending, dif_pos h]
      have hone := send_one_inv x (x.pending.get ⟨x.pendingIdx, h.1⟩) A hInv h.2
      rcases hw : x.unacked.isEmpty with _ | _
      · simp only [hw, Bool.false_eq_true, dite_false, restart_fst] at ih
        rw [hw, Bool.false_or] at hone
        simpa [hw] using ih hone
      · simp only [hw, dite_true, restart_fst] at ih
        rw [hw, Bool.true_or] at hone
        simpa [hw, restart_fst] using ih hone
  | case2 x h hc =>
      intro hInv
      rw [trySendPending, dif_neg h, if_pos hc]
      exact hInv
  | case3 x h hc =>
      intro hInv
      rw [trySendPending, dif_neg h, if_neg hc]
      exact hInv

end Sender

namespace Sender

theorem onLocal_inv (st : State) (A : List Nat) (m : Msg) (h : Inv st A) :
    Inv (onLocalMessage st m).1 A := by
  rw [onLocal_fst]
  split
  · exact h
  · split
    · next hs =>
        simp only [hasWindowSpace, decide_eq_true_eq] at hs
        exact send_one_inv st m.text A h hs
    · exact h

theorem keyMem_head (p : Nat × String) (ps : List (Nat × String)) :
    keyMem p.1 (p :: ps) = true := by
  simp [keyMem]

theorem onAck_inv (st : State) (A : List Nat) (m : Msg) (h : Inv st A)
    (hseq : m.type = "ACK" → m.seq < st.nextSeq) :
    Inv (onMessage st m).1 (A ++ (if m.type = "ACK" then [m.seq] else [])) := by
  rw [onAck_fst]
  by_cases ht : m.type = "ACK"
  · rw [if_neg (by simpa using ht), if_pos ht]
    apply trySend_inv
    obtain ⟨i1, i2, i3, i4, i5, i6, i7, i8⟩ := h
    have hseq' := hseq ht
    have hten : ∀ s, keyMem s (st.unacked.filter (fun p => ¬ p.1 == m.seq)) = true ↔
        (keyMem s st.unacked = true ∧ s ≠ m.seq) := fun s => keyMem_filter s m.seq st.unacked
    have hbge := slideBase_ge st.base st.nextSeq (st.unacked.filter (fun p => ¬ p.1 == m.seq))
    have hble := slideBase_le st.base st.nextSeq (st.unacked.filter (fun p => ¬ p.1 == m.seq)) i4
    have hnm := slideBase_not_mem st.base st.nextSeq (st.unacked.filter (fun p => ¬ p.1 == m.seq))
    have hstop := slideBase_stop st.base st.nextSeq (st.unacked.filter (fun p => ¬ p.1 == m.seq)) i4
    have hueq : ∀ he : (st.unacked.filter (fun p => ¬ p.1 == m.seq)) ≠ [],
        keyMem (slideBase st.base st.nextSeq (st.unacked.filter (fun p => ¬ p.1 == m.seq)))
          (st.unacked.filter (fun p => ¬ p.1 == m.seq)) = true := by
      intro hne
      rcases hstop with he | hm
      · exfalso
        cases hu : st.unacked.filter (fun p => ¬ p.1 == m.seq) with
        | nil => exact hne hu
        | cons p ps =>
            have hmem : keyMem p.1 (st.unacked.filter (fun p => ¬ p.1 == m.seq)) = true := by
              rw [hu]
              exact keyMem_head p ps
            have := (hten p.1).mp hmem
            have h2 := (i2 p.1).mp this.1
            have hb1 : slideBase st.base st.nextSeq
                (st.unacked.filter (fun p => ¬ p.1 == m.seq)) ≤ p.1 := by
              by_contra hcon
              have := hnm p.1 h2.1 (by omega)
              rw [this] at hmem
              cases hmem
            omega
      · exact hm
    show ((st.unacked.filter (fun p => ¬ p.1 == m.seq)).map Prod.fst).Nodup ∧
      (∀ s, keyMem s (st.unacked.filter (fun p => ¬ p.1 == m.seq)) = true ↔
        (slideBase st.base st.nextSeq (st.unacked.filter (fun p => ¬ p.1 == m.seq)) ≤ s ∧
         s < st.nextSeq ∧ s ∉ A ++ [m.seq])) ∧
      (∀ a ∈ A ++ [m.seq], a < st.nextSeq) ∧
      slideBase st.base st.nextSeq (st.unacked.filter (fun p => ¬ p.1 == m.seq)) ≤ st.nextSeq ∧
      st.nextSeq ≤ slideBase st.base st.nextSeq
        (st.unacked.filter (fun p => ¬ p.1 == m.seq)) + st.window ∧
      (st.unacked.filter (fun p => ¬ p.1 == m.seq) = [] →
        slideBase st.base st.nextSeq (st.unacked.filter (fun p => ¬ p.1 == m.seq)) = st.nextSeq) ∧
      ((if (st.unacked.filter (fun p => ¬ p.1 == m.seq)).isEmpty then false
        else if st.base < slideBase st.base st.nextSeq
            (st.unacked.filter (fun p => ¬ p.1 == m.seq)) then true
        else st.timerActive) = true ↔ st.unacked.filter (fun p => ¬ p.1 == m.seq) ≠ []) ∧
      (st.unacked.filter (fun p => ¬ p.1 == m.seq) ≠ [] →
        keyMem (slideBase st.base st.nextSeq (st.unacked.filter (fun p => ¬ p.1 == m.seq)))
          (st.unacked.filter (fun p => ¬ p.1 == m.seq)) = true)
    refine ⟨?_, ?_, ?_, hble, by omega, ?_, ?_, hueq⟩
    · exact ((List.filter_sublist _).map Prod.fst).nodup i1
    · intro s
      rw [hten s]
      constructor
      · intro ⟨h1, h2⟩
        have hr := (i2 s).mp h1
        refine ⟨?_, hr.2.1, ?_⟩
        · by_contra hcon
          have := hnm s hr.1 (by omega)
          rw [((hten s).mpr ⟨h1, h2⟩)] at this
          cases this
        · intro hc
          rcases List.mem_append.mp hc with hc | hc
          · exact hr.2.2 hc
          · simp only [List.mem_singleton] at hc
            exact h2 hc
      · intro ⟨h1, h2, h3⟩
        have hnA : s ∉ A := fun hc => h3 (List.mem_append_left _ hc)
        have hnq : s ≠ m.seq := fun hc =>
          h3 (List.mem_append_right _ (List.mem_singleton.mpr hc))
        exact ⟨(i2 s).mpr ⟨by omega, h2, hnA⟩, hnq⟩
    · intro a ha
      rcases List.mem_append.mp ha with ha | ha
      · exact i3 a ha
      · simp only [List.mem_singleton] at ha
        omega
    · intro he
      rcases hstop with h' | h'
      · exact h'
      · rw [he] at h'
        cases h'
    · rcases hie : (st.unacked.filter (fun p => ¬ p.1 == m.seq)).isEmpty with _ | _
      · rw [if_neg (show ¬((st.unacked.filter (fun p => ¬ p.1 == m.seq)).isEmpty = true) by
          rw [hie]; exact Bool.false_ne_true)]
        have hne : st.unacked.filter (fun p => ¬ p.1 == m.seq) ≠ [] := by
          intro hc
          rw [hc] at hie
          cases hie
        constructor
        · intro _
          exact hne
        · intro _
          split
          · rfl
          · rcases hu : st.unacked.filter (fun p => ¬ p.1 == m.seq) with _ | ⟨p, ps⟩
            · exact absurd hu hne
            · have hmem : keyMem p.1 (st.unacked.filter (fun p => ¬ p.1 == m.seq)) = true := by
                rw [hu]
                exact keyMem_head p ps
              have := (hten p.1).mp hmem
              have hnon : st.unacked ≠ [] := by
                intro hc
                rw [hc] at this
                simp [keyMem] at this
              exact i7.mpr hnon
      · rw [if_pos hie]
        have he : st.unacked.filter (fun p => ¬ p.1 == m.seq) = [] :=
          List.isEmpty_iff.mp hie
        rw [he]
        simp
  · rw [if_pos ht]
    rw [if_neg ht]
    simpa using h

theorem onTimer_inv (st : State) (A : List Nat) (n : String) (h : Inv st A) :
    Inv (onTimer st n).1 A := by
  rw [onTimer_fst]
  split
  · exact h
  · obtain ⟨i1, i2, i3, i4, i5, i6, i7, i8⟩ := h
    split
    · next he =>
        have hee : st.unacked = [] := List.isEmpty_iff.mp he
        exact ⟨i1, i2, i3, i4, i5, i6, by simp [hee], i8⟩
    · next he =>
        have hne : st.unacked ≠ [] := by
          intro hc
          rw [hc] at he
          exact he rfl
        exact ⟨i1, i2, i3, i4, i5, i6, by simp [hne], i8⟩

theorem ackSeqs_cons (e : Ev) (es : List Ev) :
    ackSeqs (e :: es) = ackSeqs [e] ++ ackSeqs es := by
  cases e <;> simp [ackSeqs, List.filterMap_cons] <;> split <;> simp

theorem run_inv (es : List Ev) : ∀ (st : State) (A : List Nat), Inv st A →
    validRun st es = true → Inv (runState st es) (A ++ ackSeqs es) := by
  induction es with
  | nil =>
      intro st A h _
      simpa [ackSeqs] using h
  | cons e es ih =>
      intro st A h hv
      simp only [validRun, Bool.and_eq_true] at hv
      rw [runState]
      have hstep : Inv (step st e).1 (A ++ ackSeqs [e]) := by
        cases e with
        | app m =>
            simpa [ackSeqs] using onLocal_inv st A m h
        | wire m =>
            have hcnd : m.type = "ACK" → m.seq < st.nextSeq := by
              intro hm
              have := hv.1
              simp only [hm] at this
              simpa using this
            have hthis := onAck_inv st A m h hcnd
            by_cases hm : m.type = "ACK"
            · rw [if_pos hm] at hthis
              have : ackSeqs [Ev.wire m] = [m.seq] := by
                simp [ackSeqs, List.filterMap_cons, hm]
              rw [this]
              exact hthis
            · rw [if_neg hm] at hthis
              have : ackSeqs [Ev.wire m] = [] := by
                simp [ackSeqs, List.filterMap_cons, hm]
              rw [this]
              exact hthis
        | timer n =>
            simpa [ackSeqs] using onTimer_inv st A n h
      have hres := ih (step st e).1 (A ++ ackSeqs [e]) hstep hv.2
      rw [List.append_assoc] at hres
      rw [ackSeqs_cons, ← List.append_assoc, List.append_assoc]
      exact hres

end Sender

theorem sender_init_inv (w : Nat) : Sender.Inv (Sender.init w) [] := by
  unfold Sender.Inv Sender.init
  refine ⟨by simp, ?_, by simp, by simp, by simp, by simp, by simp, by simp⟩
  intro s
  simp [keyMem]
  omega

/-- C4: windowed-sender state invariant.  After any run of events in
which every ACK acknowledges an already-assigned sequence number (as
any real receiver/channel guarantees), the keys of `unacked` are
exactly the sequence numbers `s` with `base ≤ s < next_seq` whose ACK
has not been processed; in particular `base` is a key of `unacked`
whenever `unacked` is non-empty; and the retransmission timer is armed
iff `unacked` is non-empty. -/
theorem sender_state_invariant (w : Nat) (es : List Sender.Ev)
    (h : Sender.validRun (Sender.init w) es = true) :
    (∀ s, keyMem s (Sender.runState (Sender.init w) es).unacked = true ↔
      ((Sender.runState (Sender.init w) es).base ≤ s ∧
       s < (Sender.runState (Sender.init w) es).nextSeq ∧ s ∉ Sender.ackSeqs es)) ∧
    ((Sender.runState (Sender.init w) es).unacked ≠ [] →
      keyMem (Sender.runState (Sender.init w) es).base
        (Sender.runState (Sender.init w) es).unacked = true) ∧
    ((Sender.runState (Sender.init w) es).timerActive = true ↔
      (Sender.runState (Sender.init w) es).unacked ≠ []) := by
  have hinv := Sender.run_inv es (Sender.init w) [] (sender_init_inv w) h
  rw [List.nil_append] at hinv
  exact ⟨hinv.2.1, hinv.2.2.2.2.2.2.2, hinv.2.2.2.2.2.2.1⟩

/-- Witness for C4: a concrete run — send "a" (seq 1), send "b"
(seq 2), then ACK 1 arrives. -/
theorem sender_state_invariant_witness :
    Sender.validRun (Sender.init 10)
      [Sender.Ev.app ⟨"MESSAGE", 0, "a"⟩, Sender.Ev.app ⟨"MESSAGE", 0, "b"⟩,
       Sender.Ev.wire ⟨"ACK", 1, ""⟩] = true ∧
    (∀ s, keyMem s (Sender.runState (Sender.init 10)
        [Sender.Ev.app ⟨"MESSAGE", 0, "a"⟩, Sender.Ev.app ⟨"MESSAGE", 0, "b"⟩,
         Sender.Ev.wire ⟨"ACK", 1, ""⟩]).unacked = true ↔
      ((Sender.runState (Sender.init 10)
          [Sender.Ev.app ⟨"MESSAGE", 0, "a"⟩, Sender.Ev.app ⟨"MESSAGE", 0, "b"⟩,
           Sender.Ev.wire ⟨"ACK", 1, ""⟩]).base ≤ s ∧
       s < (Sender.runState (Sender.init 10)
          [Sender.Ev.app ⟨"MESSAGE", 0, "a"⟩, Sender.Ev.app ⟨"MESSAGE", 0, "b"⟩,
           Sender.Ev.wire ⟨"ACK", 1, ""⟩]).nextSeq ∧
       s ∉ Sender.ackSeqs
          [Sender.Ev.app ⟨"MESSAGE", 0, "a"⟩, Sender.Ev.app ⟨"MESSAGE", 0, "b"⟩,
           Sender.Ev.wire ⟨"ACK", 1, ""⟩])) :=
  ⟨by decide,
   (sender_state_invariant 10
      [Sender.Ev.app ⟨"MESSAGE", 0, "a"⟩, Sender.Ev.app ⟨"MESSAGE", 0, "b"⟩,
       Sender.Ev.wire ⟨"ACK", 1, ""⟩] (by decide)).1⟩

namespace Sender

theorem onTimer_rtx_empty (st : State) (he : st.unacked = []) :
    onTimer st "rtx" = ({ st with timerActive := false }, []) := by
  rw [onTimer, if_neg (by simp)]
  simp only []
  rw [if_pos (show ({ st with timerActive := false } : State).unacked.isEmpty = true by
    simp [he])]

theorem onTimer_rtx_nonempty (st : State) (t : String)
    (hl : st.unacked.lookup st.base = some t) :
    onTimer st "rtx"
      = ({ st with timerActive := true }, [Out.sendData st.base t, Out.setTimer]) := by
  rw [onTimer, if_neg (by simp)]
  simp only []
  have hne : st.unacked ≠ [] := by
    intro hc
    rw [hc] at hl
    cases hl
  rw [if_neg (show ¬(({ st with timerActive := false } : State).unacked.isEmpty = true) by
    simpa [List.isEmpty_iff] using hne)]
  show (_, (match List.lookup st.base st.unacked with
    | some t => [Out.sendData st.base t]
    | none => []) ++ [Out.setTimer]) = _
  rw [hl]
  rfl

theorem keyMem_lookup_isSome {k : Nat} {l : List (Nat × String)}
    (h : keyMem k l = true) : (l.lookup k).isSome = true := by
  rcases ho : l.lookup k with _ | t
  · rw [lookup_none_iff] at ho
    rw [keyMem_iff] at h
    exact absurd h ho
  · rfl

end Sender

/-- C5: go-back-one retransmission.  At any reachable sender state
(under valid ACKs), when the retransmission timer fires: if `unacked`
is empty, nothing is sent, nothing is re-armed, and the timer is left
disarmed; otherwise exactly one DATA message is sent — the single
oldest outstanding item `DATA{base, unacked[base]}` — the timer is
re-armed, and nothing else in the state changes. -/
theorem sender_go_back_one_on_timer (w : Nat) (es : List Sender.Ev)
    (h : Sender.validRun (Sender.init w) es = true) :
    ((Sender.runState (Sender.init w) es).unacked = [] →
      Sender.onTimer (Sender.runState (Sender.init w) es) "rtx"
        = ({ Sender.runState (Sender.init w) es with timerActive := false }, [])) ∧
    ((Sender.runState (Sender.init w) es).unacked ≠ [] →
      ((Sender.runState (Sender.init w) es).unacked.lookup
          (Sender.runState (Sender.init w) es).base).isSome = true ∧
      Sender.onTimer (Sender.runState (Sender.init w) es) "rtx"
        = ({ Sender.runState (Sender.init w) es with timerActive := true },
           [Out.sendData (Sender.runState (Sender.init w) es).base
              (((Sender.runState (Sender.init w) es).unacked.lookup
                  (Sender.runState (Sender.init w) es).base).getD ""),
            Out.setTimer])) := by
  have hinv := Sender.run_inv es (Sender.init w) [] (sender_init_inv w) h
  refine ⟨fun he => Sender.onTimer_rtx_empty _ he, fun hne => ?_⟩
  have hbase := hinv.2.2.2.2.2.2.2 hne
  have hsome := Sender.keyMem_lookup_isSome hbase
  refine ⟨hsome, ?_⟩
  rcases ho : (Sender.runState (Sender.init w) es).unacked.lookup
      (Sender.runState (Sender.init w) es).base with _ | t
  · rw [ho] at hsome
    cases hsome
  · exact Sender.onTimer_rtx_nonempty _ t ho

/-- Witness for C5: after one application input ("a", seq 1), the
timer fire retransmits exactly `DATA{1, "a"}` and re-arms. -/
theorem sender_go_back_one_on_timer_witness :
    Sender.validRun (Sender.init 10) [Sender.Ev.app ⟨"MESSAGE", 0, "a"⟩] = true ∧
    ((Sender.runState (Sender.init 10) [Sender.Ev.app ⟨"MESSAGE", 0, "a"⟩]).unacked ≠ [] →
      ((Sender.runState (Sender.init 10) [Sender.Ev.app ⟨"MESSAGE", 0, "a"⟩]).unacked.lookup
          (Sender.runState (Sender.init 10) [Sender.Ev.app ⟨"MESSAGE", 0, "a"⟩]).base).isSome
          = true ∧
      Sender.onTimer (Sender.runState (Sender.init 10) [Sender.Ev.app ⟨"MESSAGE", 0, "a"⟩]) "rtx"
        = ({ Sender.runState (Sender.init 10) [Sender.Ev.app ⟨"MESSAGE", 0, "a"⟩] with
              timerActive := true },
           [Out.sendData
              (Sender.runState (Sender.init 10) [Sender.Ev.app ⟨"MESSAGE", 0, "a"⟩]).base
              (((Sender.runState (Sender.init 10)
                  [Sender.Ev.app ⟨"MESSAGE", 0, "a"⟩]).unacked.lookup
                    (Sender.runState (Sender.init 10)
                      [Sender.Ev.app ⟨"MESSAGE", 0, "a"⟩]).base).getD ""),
            Out.setTimer])) :=
  ⟨by decide,
   (sender_go_back_one_on_timer 10 [Sender.Ev.app ⟨"MESSAGE", 0, "a"⟩] (by decide)).2⟩

namespace ExactlyOnceReceiver

theorem getD_set (l : List Bool) (i j : Nat) (v : Bool) :
    (l.set i v).getD j false = if i = j ∧ i < l.length then v else l.getD j false := by
  induction l generalizing i j with
  | nil => simp [List.getD]
  | cons b bs ih =>
      cases i with
      | zero =>
          cases j with
          | zero => simp [List.getD]
          | succ m => simp [List.getD]
      | succ n =>
          cases j with
          | zero => simp [List.getD]
          | succ m =>
              simp only [List.set, List.getD_cons_succ, List.length_cons]
              rw [ih n m]
              by_cases he : n = m
              · subst he
                simp
              · simp [he]

end ExactlyOnceReceiver

namespace ExactlyOnceReceiver

theorem idx_inj (h d1 d2 w : Nat) (hw : 0 < w) (h1 : d1 < w) (h2 : d2 < w)
    (he : (h + d1) % w = (h + d2) % w) : d1 = d2 := by
  have hmod : d1 ≡ d2 [MOD w] :=
    Nat.ModEq.add_left_cancel (Nat.ModEq.refl h) he
  have : d1 % w = d2 % w := hmod
  rw [Nat.mod_eq_of_lt h1, Nat.mod_eq_of_lt h2] at this
  exact this

end ExactlyOnceReceiver

namespace ExactlyOnceReceiver

theorem advance_eq (st : State) (hh : st.head < st.win) :
    advance st = { st with head := (st.head + 1) % st.win,
                           nextSeq := st.nextSeq + 1,
                           seen := st.seen.set st.head false } := by
  unfold advance
  have htail : ((st.head + 1) % st.win + st.win - 1) % st.win = st.head := by
    rcases Nat.lt_or_ge (st.head + 1) st.win with hc | hc
    · rw [Nat.mod_eq_of_lt hc]
      rw [show st.head + 1 + st.win - 1 = st.head + st.win by omega]
      rw [Nat.add_mod_right, Nat.mod_eq_of_lt hh]
    · have hhe : st.head + 1 = st.win := by omega
      rw [hhe, Nat.mod_self]
      rw [Nat.mod_eq_of_lt (by omega)]
      omega
  simp only []
  rw [htail]

theorem core_advance (st : State) (hc : Core st) : Core (advance st) := by
  obtain ⟨c1, c2, c3, c4⟩ := hc
  rw [advance_eq st c2]
  refine ⟨c1, ?_, ?_, ?_⟩
  · show (st.head + 1) % st.win < st.win
    exact Nat.mod_lt _ c1
  · show (st.seen.set st.head false).length = st.win
    rw [List.length_set]
    exact c3
  · show 1 ≤ st.nextSeq + 1
    omega

theorem bitAt_advance (st : State) (hc : Core st) (d : Nat) (hd : d < st.win) :
    bitAt (advance st) d = if d = st.win - 1 then false else bitAt st (d + 1) := by
  obtain ⟨c1, c2, c3, c4⟩ := hc
  rw [advance_eq st c2]
  unfold bitAt
  simp only []
  have hidx : ((st.head + 1) % st.win + d) % st.win = (st.head + (d + 1)) % st.win := by
    rw [Nat.mod_add_mod]
    congr 1
    omega
  rw [hidx, getD_set]
  by_cases he : d = st.win - 1
  · subst he
    rw [if_pos]
    · rw [if_pos rfl]
    · constructor
      · rw [show st.head + (st.win - 1 + 1) = st.head + st.win by omega]
        rw [Nat.add_mod_right, Nat.mod_eq_of_lt c2]
      · omega
  · rw [if_neg he, if_neg]
    intro ⟨hih, _⟩
    have : st.head = (st.head + (d + 1)) % st.win := hih
    have h0 : (st.head + 0) % st.win = (st.head + (d + 1)) % st.win := by
      rw [Nat.add_zero, Nat.mod_eq_of_lt c2]
      exact this
    have := idx_inj st.head 0 (d + 1) st.win c1 (by omega) (by omega) h0
    omega

theorem bitAt_zero (st : State) (hc : Core st) :
    bitAt st 0 = st.seen.getD st.head false := by
  unfold bitAt
  rw [Nat.add_zero, Nat.mod_eq_of_lt hc.2.1]

end ExactlyOnceReceiver

namespace ExactlyOnceReceiver

theorem delivC_advance (st : State) (hc : Core st) (h0 : bitAt st 0 = false) (s : Nat) :
    DelivC (advance st) s ↔ (DelivC st s ∨ s = st.nextSeq) := by
  obtain ⟨c1, c2, c3, c4⟩ := hc
  have hwin : (advance st).win = st.win := by rw [advance_eq st c2]
  have hnext : (advance st).nextSeq = st.nextSeq + 1 := by rw [advance_eq st c2]
  unfold DelivC
  rw [hwin, hnext]
  by_cases hs1 : s < st.nextSeq + 1
  · by_cases hs2 : s = st.nextSeq
    · subst hs2
      constructor
      · intro _
        exact Or.inr rfl
      · intro _
        exact Or.inl ⟨c4, by omega⟩
    · constructor
      · intro h
        rcases h with h | h
        · exact Or.inl (Or.inl ⟨h.1, by omega⟩)
        · omega
      · intro h
        rcases h with (h | h) | h
        · exact Or.inl ⟨h.1, by omega⟩
        · omega
        · omega
  · have hge : st.nextSeq + 1 ≤ s := by omega
    have hbit : st.nextSeq + 1 ≤ s → s < st.nextSeq + 1 + st.win →
        (bitAt (advance st) (s - (st.nextSeq + 1)) = true ↔
         (st.nextSeq ≤ s ∧ s < st.nextSeq + st.win ∧ bitAt st (s - st.nextSeq) = true)) := by
      intro hg hl
      rw [bitAt_advance st ⟨c1, c2, c3, c4⟩ (s - (st.nextSeq + 1)) (by omega)]
      by_cases he : s - (st.nextSeq + 1) = st.win - 1
      · rw [if_pos he]
        constructor
        · intro hcon
          cases hcon
        · intro ⟨_, hlt, _⟩
          omega
      · rw [if_neg he]
        rw [show s - (st.nextSeq + 1) + 1 = s - st.nextSeq by omega]
        constructor
        · intro hb
          exact ⟨by omega, by omega, hb⟩
        · intro ⟨_, _, hb⟩
          exact hb
    constructor
    · intro h
      rcases h with h | h
      · omega
      · have := (hbit h.1 h.2.1).mp h.2.2
        exact Or.inl (Or.inr ⟨this.1, this.2.1, this.2.2⟩)
    · intro h
      rcases h with (h | h) | h
      · omega
      · refine Or.inr ⟨by omega, by omega, ?_⟩
        exact (hbit (by omega) (by omega)).mpr ⟨h.1, h.2.1, h.2.2⟩
      · omega

theorem clear_head_props (st : State) (hc : Core st) :
    Core { st with seen := st.seen.set st.head false } ∧
    bitAt { st with seen := st.seen.set st.head false } 0 = false ∧
    (∀ d, 0 < d → d < st.win →
      bitAt { st with seen := st.seen.set st.head false } d = bitAt st d) ∧
    (∀ s, DelivC { st with seen := st.seen.set st.head false } s ↔
      (DelivC st s ∧ s ≠ st.nextSeq)) := by
  obtain ⟨c1, c2, c3, c4⟩ := hc
  have hcore : Core { st with seen := st.seen.set st.head false } :=
    ⟨c1, c2, by simpa using c3, c4⟩
  have hb0 : bitAt { st with seen := st.seen.set st.head false } 0 = false := by
    unfold bitAt
    simp only []
    rw [Nat.add_zero, Nat.mod_eq_of_lt c2, getD_set, if_pos ⟨rfl, by omega⟩]
  have hbd : ∀ d, 0 < d → d < st.win →
      bitAt { st with seen := st.seen.set st.head false } d = bitAt st d := by
    intro d hd1 hd2
    unfold bitAt
    simp only []
    rw [getD_set, if_neg]
    intro ⟨hih, _⟩
    have h0 : (st.head + 0) % st.win = (st.head + d) % st.win := by
      rw [Nat.add_zero, Nat.mod_eq_of_lt c2]
      exact hih
    have := idx_inj st.head 0 d st.win c1 (by omega) hd2 h0
    omega
  refine ⟨hcore, hb0, hbd, ?_⟩
  intro s
  unfold DelivC
  simp only []
  constructor
  · intro h
    rcases h with h | h
    · exact ⟨Or.inl h, by omega⟩
    · by_cases he : s = st.nextSeq
      · subst he
        exfalso
        rw [show st.nextSeq - st.nextSeq = 0 from by omega] at h
        exact absurd (hb0.symm.trans h.2.2) (fun hcon => by cases hcon)
      · refine ⟨Or.inr ⟨h.1, h.2.1, ?_⟩, he⟩
        rw [← hbd (s - st.nextSeq) (by omega) (by omega)]
        exact h.2.2
  · intro ⟨h, hne⟩
    rcases h with h | h
    · exact Or.inl h
    · refine Or.inr ⟨h.1, h.2.1, ?_⟩
      rw [hbd (s - st.nextSeq) (by omega) (by omega)]
      exact h.2.2

end ExactlyOnceReceiver

namespace ExactlyOnceReceiver

theorem catchUp_props (st : State) : Core st →
    Core (catchUp st) ∧
    bitAt (catchUp st) 0 = false ∧
    (∀ s, DelivC (catchUp st) s ↔ DelivC st s) := by
  induction st using catchUp.induct with
  | case1 st hbit ih =>
      intro hc
      rw [catchUp, dif_pos hbit]
      obtain ⟨hcore', hb0', hbd', hdc'⟩ := clear_head_props st hc
      have hbit0 : bitAt st 0 = true := by
        rw [bitAt_zero st hc]
        exact hbit
      have hdnext : DelivC st st.nextSeq := by
        unfold DelivC
        refine Or.inr ⟨Nat.le_refl _, by have := hc.1; omega, ?_⟩
        rw [show st.nextSeq - st.nextSeq = 0 from by omega]
        exact hbit0
      obtain ⟨r1, r2, r3⟩ := ih (core_advance _ hcore')
      refine ⟨r1, r2, ?_⟩
      intro s
      rw [r3 s]
      rw [delivC_advance _ hcore' hb0' s]
      rw [hdc' s]
      constructor
      · intro h
        rcases h with h | h
        · exact h.1
        · rw [h]
          exact hdnext
      · intro h
        by_cases he : s = st.nextSeq
        · exact Or.inr he
        · exact Or.inl ⟨h, he⟩
  | case2 st hbit =>
      intro hc
      rw [catchUp, dif_neg hbit]
      refine ⟨hc, ?_, fun s => Iff.rfl⟩
      rw [bitAt_zero st hc]
      exact Bool.not_eq_true _ |>.mp hbit

theorem ensureWindow_props (st : State) (offset : Nat) (hc : Core st) :
    Core (ensureWindow offset st) ∧
    (ensureWindow offset st).nextSeq = st.nextSeq ∧
    st.win ≤ (ensureWindow offset st).win ∧
    offset < (ensureWindow offset st).win ∧
    (∀ d, d < st.win → bitAt (ensureWindow offset st) d = bitAt st d) ∧
    (∀ d, st.win ≤ d → d < (ensureWindow offset st).win →
      bitAt (ensureWindow offset st) d = false) := by
  obtain ⟨c1, c2, c3, c4⟩ := hc
  rcases Nat.lt_or_ge offset st.win with hlt | hge
  · rw [ensureWindow, if_pos hlt]
    exact ⟨⟨c1, c2, c3, c4⟩, rfl, Nat.le_refl _, hlt, fun d _ => rfl,
      fun d h1 h2 => absurd (Nat.lt_of_le_of_lt h1 h2) (by omega)⟩
  · rw [ensureWindow, if_neg (by omega)]
    simp only []
    have hg := growWin_ge offset st.win
    set nw := (if growWin offset st.win ≤ offset then offset + 1
      else growWin offset st.win) with hnw
    have hwle : st.win ≤ nw := by
      rw [hnw]
      split <;> omega
    have hofflt : offset < nw := by
      rw [hnw]
      split
      · omega
      · next hcc => omega
    refine ⟨⟨by show 0 < nw; omega, by show (0:Nat) < nw; omega, ?_, c4⟩,
      trivial, hwle, hofflt, ?_, ?_⟩
    · show ((List.range nw).map _).length = nw
      rw [List.length_map, List.length_range]
    · intro d hd
      unfold bitAt
      simp only []
      rw [Nat.zero_add, Nat.mod_eq_of_lt (by omega), getD_map_range,
        if_pos (by omega), if_pos (by omega)]
    · intro d hd1 hd2
      unfold bitAt
      simp only []
      rw [Nat.zero_add, Nat.mod_eq_of_lt (by omega), getD_map_range,
        if_pos (by omega), if_neg (by omega)]

theorem delivC_ensure (st : State) (offset : Nat) (hc : Core st) (s : Nat) :
    DelivC (ensureWindow offset st) s ↔ DelivC st s := by
  obtain ⟨hcore, hnext, hwle, _, hbd, hbz⟩ := ensureWindow_props st offset hc
  unfold DelivC
  rw [hnext]
  constructor
  · intro h
    rcases h with h | h
    · exact Or.inl h
    · by_cases hin : s < st.nextSeq + st.win
      · refine Or.inr ⟨h.1, hin, ?_⟩
        rw [← hbd (s - st.nextSeq) (by omega)]
        exact h.2.2
      · exfalso
        have := hbz (s - st.nextSeq) (by omega) (by omega)
        rw [this] at h
        exact absurd h.2.2 (fun hcon => by cases hcon)
  · intro h
    rcases h with h | h
    · exact Or.inl h
    · refine Or.inr ⟨h.1, by omega, ?_⟩
      rw [hbd (s - st.nextSeq) (by omega)]
      exact h.2.2

end ExactlyOnceReceiver

namespace ExactlyOnceReceiver

theorem getD_replicate_false (n i : Nat) :
    (List.replicate n false).getD i false = false := by
  induction n generalizing i with
  | zero => simp [List.getD]
  | succ k ih =>
      cases i with
      | zero => simp [List.replicate, List.getD]
      | succ j =>
          rw [List.replicate, List.getD_cons_succ]
          exact ih j

theorem bitAt_init (d : Nat) : bitAt init d = false := by
  unfold bitAt init
  exact getD_replicate_false 32 _

theorem inv_init : Inv init [] := by
  refine ⟨⟨by decide, by decide, by decide, by decide⟩, bitAt_init 0, ?_⟩
  intro s
  constructor
  · intro h
    exact absurd h (List.not_mem_nil s)
  · intro h
    exfalso
    rcases h with ⟨h1, h2⟩ | ⟨h1, h2, h3⟩
    · have hn : init.nextSeq = 1 := rfl
      omega
    · rw [bitAt_init] at h3
      cases h3

theorem set_true_props (st : State) (offset : Nat) (hc : Core st)
    (h0 : 0 < offset) (hlt : offset < st.win) :
    Core { st with seen := st.seen.set ((st.head + offset) % st.win) true } ∧
    (∀ d, d < st.win →
      bitAt { st with seen := st.seen.set ((st.head + offset) % st.win) true } d =
        if d = offset then true else bitAt st d) ∧
    (∀ s, DelivC { st with seen := st.seen.set ((st.head + offset) % st.win) true } s ↔
      (DelivC st s ∨ s = st.nextSeq + offset)) := by
  obtain ⟨c1, c2, c3, c4⟩ := hc
  have hbit : ∀ d, d < st.win →
      bitAt { st with seen := st.seen.set ((st.head + offset) % st.win) true } d =
        if d = offset then true else bitAt st d := by
    intro d hd
    unfold bitAt
    simp only []
    rw [getD_set]
    by_cases he : d = offset
    · subst he
      rw [if_pos ⟨rfl, by rw [c3]; exact Nat.mod_lt _ c1⟩, if_pos rfl]
    · rw [if_neg, if_neg he]
      intro ⟨hij, _⟩
      exact he (idx_inj st.head offset d st.win c1 hlt hd hij).symm
  refine ⟨⟨c1, c2, by simpa using c3, c4⟩, hbit, ?_⟩
  intro s
  unfold DelivC
  simp only []
  constructor
  · intro h
    rcases h with h | ⟨h1, h2, h3⟩
    · exact Or.inl (Or.inl h)
    · rw [hbit (s - st.nextSeq) (by omega)] at h3
      by_cases he : s - st.nextSeq = offset
      · exact Or.inr (by omega)
      · rw [if_neg he] at h3
        exact Or.inl (Or.inr ⟨h1, h2, h3⟩)
  · intro h
    rcases h with (h | ⟨h1, h2, h3⟩) | h
    · exact Or.inl h
    · refine Or.inr ⟨h1, h2, ?_⟩
      rw [hbit (s - st.nextSeq) (by omega)]
      by_cases he : s - st.nextSeq = offset
      · rw [if_pos he]
      · rw [if_neg he]
        exact h3
    · subst h
      refine Or.inr ⟨by omega, by omega, ?_⟩
      rw [hbit (st.nextSeq + offset - st.nextSeq) (by omega)]
      rw [if_pos (by omega)]

end ExactlyOnceReceiver

namespace ExactlyOnceReceiver

theorem eo_step (st : State) (ds : List Nat) (m : Msg) (hinv : Inv st ds) :
    Inv (onMessage st m).1
      (if (onMessage st m).2.any Out.isDeliver then m.seq :: ds else ds) ∧
    ((onMessage st m).2.any Out.isDeliver = true ↔
      (m.type = "DATA" ∧ 1 ≤ m.seq ∧ m.seq ∉ ds)) := by
  obtain ⟨hcore, hb0, hmem⟩ := hinv
  by_cases htype : m.type = "DATA"
  case neg =>
    unfold onMessage
    rw [if_pos htype]
    refine ⟨?_, ?_⟩
    · rw [if_neg (by simp)]
      exact ⟨hcore, hb0, hmem⟩
    · constructor
      · intro h
        simp at h
      · intro ⟨hd, _⟩
        exact absurd hd htype
  case pos =>
    unfold onMessage
    rw [if_neg (not_not_intro htype)]
    by_cases hslt : m.seq < st.nextSeq
    · rw [if_pos hslt]
      have hds : m.seq ∈ ds ∨ m.seq = 0 := by
        rcases Nat.eq_zero_or_pos m.seq with hz | hp
        · exact Or.inr hz
        · exact Or.inl ((hmem m.seq).mpr (Or.inl ⟨hp, hslt⟩))
      refine ⟨?_, ?_⟩
      · rw [if_neg (by simp [Out.isDeliver])]
        exact ⟨hcore, hb0, hmem⟩
      · constructor
        · intro h
          simp [Out.isDeliver] at h
        · intro ⟨_, h1, hnm⟩
          rcases hds with hds | hds
          · exact absurd hds hnm
          · omega
    · rw [if_neg hslt]
      simp only []
      have hge : st.nextSeq ≤ m.seq := Nat.le_of_not_lt hslt
      obtain ⟨hc1, hn1, hw1, ho1, hbd1, hbz1⟩ :=
        ensureWindow_props st (m.seq - st.nextSeq) hcore
      set st1 := ensureWindow (m.seq - st.nextSeq) st with hst1
      have hb01 : bitAt st1 0 = false := by
        rw [hbd1 0 hcore.1]
        exact hb0
      have hmem1 : ∀ s, s ∈ ds ↔ DelivC st1 s := by
        intro s
        rw [hmem s]
        exact (delivC_ensure st (m.seq - st.nextSeq) hcore s).symm
      have hseq1 : 1 ≤ m.seq := by
        have := hcore.2.2.2
        omega
      by_cases hoff : m.seq - st.nextSeq = 0
      · rw [if_pos hoff]
        have hseq : m.seq = st.nextSeq := by omega
        have hnotin : m.seq ∉ ds := by
          rw [hmem1 m.seq]
          intro hd
          rcases hd with ⟨x1, x2⟩ | ⟨x1, x2, x3⟩
          · rw [hn1] at x2
            omega
          · have hx : m.seq - st1.nextSeq = 0 := by
              rw [hn1]
              exact hoff
            rw [hx, hb01] at x3
            cases x3
        have hdel : ([Out.deliver m.text, Out.sendAck m.seq].any Out.isDeliver) = true := rfl
        refine ⟨?_, ?_⟩
        · rw [if_pos hdel]
          obtain ⟨ca1, ca2, ca3⟩ := catchUp_props (advance st1) (core_advance st1 hc1)
          refine ⟨ca1, ca2, ?_⟩
          intro s
          rw [ca3 s, delivC_advance st1 hc1 hb01 s]
          rw [List.mem_cons, hmem1 s, hn1, hseq]
          exact or_comm
        · rw [hdel]
          constructor
          · intro _
            exact ⟨htype, hseq1, hnotin⟩
          · intro _
            rfl
      · rw [if_neg hoff]
        have hopos : 0 < m.seq - st.nextSeq := Nat.pos_of_ne_zero hoff
        by_cases hbit : st1.seen.getD ((st1.head + (m.seq - st.nextSeq)) % st1.win) false = false
        · rw [if_pos hbit]
          obtain ⟨sc, sb, sd⟩ := set_true_props st1 (m.seq - st.nextSeq) hc1 hopos ho1
          have hnotin : m.seq ∉ ds := by
            rw [hmem1 m.seq]
            intro hd
            rcases hd with ⟨x1, x2⟩ | ⟨x1, x2, x3⟩
            · rw [hn1] at x2
              omega
            · have hx : m.seq - st1.nextSeq = m.seq - st.nextSeq := by
                rw [hn1]
              rw [hx] at x3
              have : bitAt st1 (m.seq - st.nextSeq) =
                  st1.seen.getD ((st1.head + (m.seq - st.nextSeq)) % st1.win) false := rfl
              rw [this, hbit] at x3
              cases x3
          have hdel : ([Out.deliver m.text, Out.sendAck m.seq].any Out.isDeliver) = true := rfl
          refine ⟨?_, ?_⟩
          · rw [if_pos hdel]
            refine ⟨sc, ?_, ?_⟩
            · rw [sb 0 hc1.1, if_neg (by omega)]
              exact hb01
            · intro s
              rw [List.mem_cons, hmem1 s, sd s]
              have hm : st1.nextSeq + (m.seq - st.nextSeq) = m.seq := by
                rw [hn1]
                omega
              rw [hm]
              exact or_comm
          · rw [hdel]
            constructor
            · intro _
              exact ⟨htype, hseq1, hnotin⟩
            · intro _
              rfl
        · rw [if_neg hbit]
          have hbt : st1.seen.getD ((st1.head + (m.seq - st.nextSeq)) % st1.win) false = true := by
            rcases Bool.eq_false_or_eq_true
                (st1.seen.getD ((st1.head + (m.seq - st.nextSeq)) % st1.win) false) with h | h
            · exact h
            · exact absurd h hbit
          have hin : m.seq ∈ ds := by
            rw [hmem1 m.seq]
            refine Or.inr ⟨by rw [hn1]; omega, by rw [hn1]; omega, ?_⟩
            have hx : m.seq - st1.nextSeq = m.seq - st.nextSeq := by
              rw [hn1]
            rw [hx]
            exact hbt
          refine ⟨?_, ?_⟩
          · rw [if_neg (by simp [Out.isDeliver])]
            exact ⟨hc1, hb01, hmem1⟩
          · constructor
            · intro h
              simp [Out.isDeliver] at h
            · intro ⟨_, _, hnm⟩
              exact absurd hin hnm

end ExactlyOnceReceiver

namespace ExactlyOnceReceiver

theorem deliveredSeqs_cons (st : State) (m : Msg) (ms : List Msg) :
    deliveredSeqs st (m :: ms) =
      (if (onMessage st m).2.any Out.isDeliver then [m.seq] else []) ++
        deliveredSeqs (onMessage st m).1 ms := by
  rcases hx : (onMessage st m).2.any Out.isDeliver with _ | _
  · simp [deliveredSeqs, runTrace, List.filter_cons, hx]
  · simp [deliveredSeqs, runTrace, List.filter_cons, hx]

theorem deliveredSeqs_nil (st : State) : deliveredSeqs st [] = [] := rfl

theorem eo_run (ms : List Msg) : ∀ (st : State) (ds : List Nat), Inv st ds →
    Inv (runState st ms) ((deliveredSeqs st ms).reverse ++ ds) := by
  induction ms with
  | nil =>
      intro st ds h
      rw [deliveredSeqs_nil]
      exact h
  | cons m rest ih =>
      intro st ds h
      obtain ⟨h1, _⟩ := eo_step st ds m h
      rw [show runState st (m :: rest) = runState (onMessage st m).1 rest from rfl,
        deliveredSeqs_cons]
      rcases hx : (onMessage st m).2.any Out.isDeliver with _ | _
      · rw [hx] at h1
        rw [if_neg Bool.false_ne_true] at h1 ⊢
        rw [List.nil_append]
        exact ih _ _ h1
      · rw [hx] at h1
        rw [if_pos rfl] at h1 ⊢
        rw [List.reverse_append, List.reverse_singleton, List.append_assoc,
          List.singleton_append]
        exact ih _ _ h1

theorem eo_count (ms : List Msg) : ∀ (st : State) (ds : List Nat), Inv st ds →
    (∀ m ∈ ms, m.type = "DATA" ∧ 1 ≤ m.seq) → ∀ s,
    (deliveredSeqs st ms).count s =
      if s ∈ ms.map Msg.seq ∧ s ∉ ds then 1 else 0 := by
  induction ms with
  | nil =>
      intro st ds _ _ s
      rw [deliveredSeqs_nil]
      simp
  | cons m rest ih =>
      intro st ds hinv hall s
      obtain ⟨h1, h2⟩ := eo_step st ds m hinv
      have hm := hall m (List.mem_cons_self m rest)
      have htail : ∀ x ∈ rest, x.type = "DATA" ∧ 1 ≤ x.seq :=
        fun x hxm => hall x (List.mem_cons_of_mem m hxm)
      rw [deliveredSeqs_cons]
      rcases hx : (onMessage st m).2.any Out.isDeliver with _ | _
      · have hmemds : m.seq ∈ ds := by
          by_contra hnm
          have hcon := h2.mpr ⟨hm.1, hm.2, hnm⟩
          rw [hx] at hcon
          cases hcon
        rw [hx] at h1
        rw [if_neg Bool.false_ne_true] at h1 ⊢
        rw [List.nil_append, ih _ _ h1 htail s]
        by_cases hs : s = m.seq
        · subst hs
          rw [if_neg (fun hcon => hcon.2 hmemds), if_neg (fun hcon => hcon.2 hmemds)]
        · have hcond : (s ∈ rest.map Msg.seq ∧ s ∉ ds) ↔
              (s ∈ (m :: rest).map Msg.seq ∧ s ∉ ds) := by
            rw [List.map_cons, List.mem_cons]
            constructor
            · rintro ⟨ha, hb⟩
              exact ⟨Or.inr ha, hb⟩
            · rintro ⟨ha, hb⟩
              rcases ha with ha | ha
              · exact absurd ha hs
              · exact ⟨ha, hb⟩
          rw [if_congr hcond rfl rfl]
      · have hinfo := h2.mp (by rw [hx])
        rw [hx] at h1
        rw [if_pos rfl] at h1 ⊢
        rw [List.singleton_append]
        by_cases hs : s = m.seq
        · subst hs
          rw [List.count_cons_self, ih _ _ h1 htail m.seq]
          rw [if_neg (fun hcon => hcon.2 (List.mem_cons_self _ _))]
          rw [if_pos ⟨by rw [List.map_cons]; exact List.mem_cons_self _ _, hinfo.2.2⟩]
        · rw [List.count_cons_of_ne hs, ih _ _ h1 htail s]
          have hcond : (s ∈ rest.map Msg.seq ∧ s ∉ m.seq :: ds) ↔
              (s ∈ (m :: rest).map Msg.seq ∧ s ∉ ds) := by
            rw [List.map_cons, List.mem_cons, List.mem_cons]
            constructor
            · rintro ⟨ha, hb⟩
              exact ⟨Or.inr ha, fun hcon => hb (Or.inr hcon)⟩
            · rintro ⟨ha, hb⟩
              rcases ha with ha | ha
              · exact absurd ha hs
              · refine ⟨ha, ?_⟩
                intro hcon
                rcases hcon with hcon | hcon
                · exact hs hcon
                · exact hb hcon
          rw [if_congr hcond rfl rfl]

end ExactlyOnceReceiver

/-- C1: exactly-once (dedup) receiver.  For every arrival sequence of
`DATA{seq,text}` messages whose sequence numbers were assigned from 1
upward (arbitrary duplication and reordering allowed), each distinct
`seq` that arrives at least once is delivered to the application
exactly once: its multiplicity in the delivered-sequence trace is 1,
and the multiplicity of a `seq` that never arrives is 0. -/
theorem exactly_once_dedup_delivery (ms : List Msg)
    (h : ∀ m ∈ ms, m.type = "DATA" ∧ 1 ≤ m.seq) (s : Nat) :
    (ExactlyOnceReceiver.deliveredSeqs ExactlyOnceReceiver.init ms).count s =
      if s ∈ ms.map Msg.seq then 1 else 0 := by
  rw [ExactlyOnceReceiver.eo_count ms ExactlyOnceReceiver.init []
    ExactlyOnceReceiver.inv_init h s]
  refine if_congr ?_ rfl rfl
  constructor
  · rintro ⟨ha, _⟩
    exact ha
  · intro ha
    exact ⟨ha, List.not_mem_nil s⟩

theorem exactly_once_dedup_delivery_witness :
    (∀ m ∈ [⟨"DATA", 2, "b"⟩, ⟨"DATA", 1, "a"⟩, (⟨"DATA", 2, "c"⟩ : Msg)],
      m.type = "DATA" ∧ 1 ≤ m.seq) ∧
    ((ExactlyOnceReceiver.deliveredSeqs ExactlyOnceReceiver.init
        [⟨"DATA", 2, "b"⟩, ⟨"DATA", 1, "a"⟩, ⟨"DATA", 2, "c"⟩]).count 2 =
      if 2 ∈ ([⟨"DATA", 2, "b"⟩, ⟨"DATA", 1, "a"⟩,
          (⟨"DATA", 2, "c"⟩ : Msg)].map Msg.seq) then 1 else 0) :=
  ⟨by decide, exactly_once_dedup_delivery
    [⟨"DATA", 2, "b"⟩, ⟨"DATA", 1, "a"⟩, ⟨"DATA", 2, "c"⟩] (by decide) 2⟩

/-- Auxiliary bridge for the run-level bitmap invariant: after any run
from the initial state, the state together with the recorded
delivered-sequence list satisfies the receiver invariant. -/
theorem eo_run_init (ms : List Msg) :
    ExactlyOnceReceiver.Inv (ExactlyOnceReceiver.runState ExactlyOnceReceiver.init ms)
      ((ExactlyOnceReceiver.deliveredSeqs ExactlyOnceReceiver.init ms).reverse ++ []) :=
  ExactlyOnceReceiver.eo_run ms ExactlyOnceReceiver.init [] ExactlyOnceReceiver.inv_init

/-- C10: implicit bitmap invariant of the exactly-once (dedup)
receiver.  At the end of every reaction sequence from the initial
state: the bit at the head slot (`seen[head]`, offset 0) is clear; for
every offset `d` with `0 < d < win`, the bit at index
`(head + d) % win` is set exactly when sequence number `next_seq + d`
has already been delivered to the application; and `next_seq` itself
has never been delivered — which is what makes the offset-0 branch's
unconditional delivery duplicate-free. -/
theorem exactly_once_bitmap_invariant (ms : List Msg) (d : Nat) (hd0 : 0 < d)
    (hdw : d < (ExactlyOnceReceiver.runState ExactlyOnceReceiver.init ms).win) :
    (ExactlyOnceReceiver.runState ExactlyOnceReceiver.init ms).seen.getD
        (ExactlyOnceReceiver.runState ExactlyOnceReceiver.init ms).head false = false ∧
    ((ExactlyOnceReceiver.runState ExactlyOnceReceiver.init ms).seen.getD
        (((ExactlyOnceReceiver.runState ExactlyOnceReceiver.init ms).head + d) %
          (ExactlyOnceReceiver.runState ExactlyOnceReceiver.init ms).win) false = true ↔
      ((ExactlyOnceReceiver.runState ExactlyOnceReceiver.init ms).nextSeq + d) ∈
        ExactlyOnceReceiver.deliveredSeqs ExactlyOnceReceiver.init ms) ∧
    (ExactlyOnceReceiver.runState ExactlyOnceReceiver.init ms).nextSeq ∉
      ExactlyOnceReceiver.deliveredSeqs ExactlyOnceReceiver.init ms := by
  obtain ⟨hcore, hb0, hmem⟩ := eo_run_init ms
  have hmm : ∀ s, s ∈ ExactlyOnceReceiver.deliveredSeqs ExactlyOnceReceiver.init ms ↔
      ExactlyOnceReceiver.DelivC
        (ExactlyOnceReceiver.runState ExactlyOnceReceiver.init ms) s := by
    intro s
    rw [← hmem s, List.append_nil, List.mem_reverse]
  refine ⟨?_, ?_, ?_⟩
  · rw [← ExactlyOnceReceiver.bitAt_zero _ hcore]
    exact hb0
  · have hb : (ExactlyOnceReceiver.runState ExactlyOnceReceiver.init ms).seen.getD
        (((ExactlyOnceReceiver.runState ExactlyOnceReceiver.init ms).head + d) %
          (ExactlyOnceReceiver.runState ExactlyOnceReceiver.init ms).win) false =
        ExactlyOnceReceiver.bitAt
          (ExactlyOnceReceiver.runState ExactlyOnceReceiver.init ms) d := rfl
    rw [hb, hmm]
    unfold ExactlyOnceReceiver.DelivC
    constructor
    · intro hbit
      refine Or.inr ⟨by omega, by omega, ?_⟩
      rw [show (ExactlyOnceReceiver.runState ExactlyOnceReceiver.init ms).nextSeq + d -
        (ExactlyOnceReceiver.runState ExactlyOnceReceiver.init ms).nextSeq = d by omega]
      exact hbit
    · intro hdc
      rcases hdc with ⟨x1, x2⟩ | ⟨x1, x2, x3⟩
      · omega
      · rw [show (ExactlyOnceReceiver.runState ExactlyOnceReceiver.init ms).nextSeq + d -
          (ExactlyOnceReceiver.runState ExactlyOnceReceiver.init ms).nextSeq = d by omega] at x3
        exact x3
  · rw [hmm]
    intro hdc
    rcases hdc with ⟨x1, x2⟩ | ⟨x1, x2, x3⟩
    · omega
    · rw [show (ExactlyOnceReceiver.runState ExactlyOnceReceiver.init ms).nextSeq -
        (ExactlyOnceReceiver.runState ExactlyOnceReceiver.init ms).nextSeq = 0 by omega,
        hb0] at x3
      cases x3

theorem exactly_once_bitmap_invariant_witness :
    0 < 1 ∧
    1 < (ExactlyOnceReceiver.runState ExactlyOnceReceiver.init
      [⟨"PING", 7, "x"⟩]).win ∧
    ((ExactlyOnceReceiver.runState ExactlyOnceReceiver.init
        [⟨"PING", 7, "x"⟩]).seen.getD
        (ExactlyOnceReceiver.runState ExactlyOnceReceiver.init
          [⟨"PING", 7, "x"⟩]).head false = false ∧
    ((ExactlyOnceReceiver.runState ExactlyOnceReceiver.init
        [⟨"PING", 7, "x"⟩]).seen.getD
        (((ExactlyOnceReceiver.runState ExactlyOnceReceiver.init
            [⟨"PING", 7, "x"⟩]).head + 1) %
          (ExactlyOnceReceiver.runState ExactlyOnceReceiver.init
            [⟨"PING", 7, "x"⟩]).win) false = true ↔
      ((ExactlyOnceReceiver.runState ExactlyOnceReceiver.init
          [⟨"PING", 7, "x"⟩]).nextSeq + 1) ∈
        ExactlyOnceReceiver.deliveredSeqs ExactlyOnceReceiver.init
          [⟨"PING", 7, "x"⟩]) ∧
    (ExactlyOnceReceiver.runState ExactlyOnceReceiver.init
        [⟨"PING", 7, "x"⟩]).nextSeq ∉
      ExactlyOnceReceiver.deliveredSeqs ExactlyOnceReceiver.init
        [⟨"PING", 7, "x"⟩]) :=
  ⟨by decide, by decide,
    exactly_once_bitmap_invariant [⟨"PING", 7, "x"⟩] 1 (by decide) (by decide)⟩
